import Mathlib

/-
Verification of the extraction-and-patch pipeline of `scripts/update-template.js`
(UptimeFlare).  The two components are embedded shallowly over `List Char`:

* the Monitor Extractor (`extractMonitorIds`): two global regex scans
  (`id:\s*['"`]([^'"`]+)['"`]` and the same with `name:`), the
  `indexOf('monitors: [')` search, the bracket-depth scan for the closing `]`,
  the positional filter and the index-wise pairing;

* the Template Patcher (`updateIssueTemplate`): the rendering of the option
  block, the single-match replacement with the regex
  `(options:\s*\n)([\s\S]*?)(\n\n|\n  - type:)` and the ECMA-262
  `GetSubstitution` processing of the replacement template
  `` `$1${allOptions}$3` ``.

File reads and writes are modelled by passing the file contents in and out;
a failed `readFileSync` (the `catch` path of `extractMonitorIds`) is the
`none` case of its `Option` argument.
-/

/-- The single-quote character `'` (code 39). -/
def sqCh : Char := Char.ofNat 39

/-- The backtick character (code 96). -/
def bqCh : Char := Char.ofNat 96

/-- The three string delimiters accepted by the `['"`]` character class. -/
def isQuoteCh (c : Char) : Bool := c = sqCh || c = '"' || c = bqCh

/-- JavaScript's `\s` character class (ECMA-262 WhiteSpace ∪ LineTerminator). -/
def isWs (c : Char) : Bool :=
  c = ' ' || c = '\t' || c = '\n' || c = '\r' ||
  c = Char.ofNat 11 || c = Char.ofNat 12 ||
  c = Char.ofNat 160 || c = Char.ofNat 5760 ||
  (8192 ≤ c.toNat && c.toNat ≤ 8202) ||
  c = Char.ofNat 8232 || c = Char.ofNat 8233 || c = Char.ofNat 8239 ||
  c = Char.ofNat 8287 || c = Char.ofNat 12288 || c = Char.ofNat 65279

/-- One match of `key:\s*['"`]([^'"`]+)['"`]`, as produced by `matchAll`:
its start `index`, the matched whitespace run `ws`, the two delimiter
characters and the captured group `value`. -/
structure FMatch where
  index : Nat
  ws : List Char
  openQ : Char
  value : List Char
  closeQ : Char
deriving DecidableEq

/-- Length of the full match of `key:\s*['"`]([^'"`]+)['"`]`:
`key`, `:`, the whitespace run, the two delimiters and the value. -/
def fmLen (key w v : List Char) : Nat := key.length + w.length + v.length + 3

/-- Try to match `key:\s*['"`]([^'"`]+)['"`]` at the head of `s`.
The greedy `\s*` is the maximal whitespace run (no quote is whitespace, so
no backtracking can succeed), and the greedy `[^'"`]+` is the maximal
nonempty run of non-quote characters followed by a quote. -/
def tryField (key s : List Char) : Option (List Char × Char × List Char × Char) :=
  if (key ++ [':']).isPrefixOf s then
    let s1 := s.drop (key.length + 1)
    let w := s1.takeWhile isWs
    match s1.drop w.length with
    | [] => none
    | q1 :: s2 =>
      if isQuoteCh q1 then
        let v := s2.takeWhile (fun c => !(isQuoteCh c))
        match s2.drop v.length with
        | [] => none
        | q2 :: _ =>
          if v = [] then none
          else if isQuoteCh q2 then some (w, q1, v, q2) else none
      else none
  else none

/-- `matchAll` scan: try the pattern at every position, and after a match
resume just past it (`lastIndex` advancement).  The fuel argument only
bounds the recursion; `fieldMatches` supplies enough for the whole string. -/
def fieldMatchesFuel (key : List Char) : Nat → List Char → Nat → List FMatch
  | 0, _, _ => []
  | _ + 1, [], _ => []
  | fuel + 1, c :: tl, i =>
    match tryField key (c :: tl) with
    | some (w, q1, v, q2) =>
      ⟨i, w, q1, v, q2⟩ ::
        fieldMatchesFuel key fuel ((c :: tl).drop (fmLen key w v)) (i + fmLen key w v)
    | none => fieldMatchesFuel key fuel tl (i + 1)

/-- All matches of `key:\s*['"`]([^'"`]+)['"`]` in `s`, leftmost first,
non-overlapping (`[...s.matchAll(...)]`). -/
def fieldMatches (key s : List Char) : List FMatch := fieldMatchesFuel key s.length s 0

/-- `String.prototype.indexOf`: position of the first occurrence of `pat`. -/
def indexOfL (pat : List Char) : List Char → Option Nat
  | [] => if pat.isPrefixOf ([] : List Char) then some 0 else none
  | c :: tl => if pat.isPrefixOf (c :: tl) then some 0 else (indexOfL pat tl).map (· + 1)

/-- The bracket-depth loop of `extractMonitorIds` (lines 31-40): each `[`
increments the counter, a `]` at count zero is the answer, any other `]`
decrements the counter. -/
def scanClose : List Char → Nat → Nat → Option Nat
  | [], _, _ => none
  | c :: tl, i, depth =>
    if c = '[' then scanClose tl (i + 1) (depth + 1)
    else if c = ']' then
      if depth = 0 then some i else scanClose tl (i + 1) (depth - 1)
    else scanClose tl (i + 1) depth

/-- One `{ id, name }` record pushed by the pairing loop. -/
structure Monitor where
  id : List Char
  name : List Char
deriving DecidableEq

def idKey : List Char := "id".data

def nameKey : List Char := "name".data

def monitorsMarker : List Char := "monitors: [".data

/-- `configContent.indexOf('monitors: [')`, with JavaScript's `-1` for
"not found". -/
def monitorsStartPos (cfg : List Char) : Int :=
  match indexOfL monitorsMarker cfg with
  | none => -1
  | some i => (i : Int)

/-- `monitorsEndPos`: the bracket scan starting at
`monitorsStartPos + 'monitors: ['.length` (which is `10` when the marker is
missing, exactly as in the source), `-1` when the loop finds nothing. -/
def monitorsEndPos (cfg : List Char) : Int :=
  let st : Nat := (monitorsStartPos cfg + (monitorsMarker.length : Int)).toNat
  match scanClose (cfg.drop st) st 0 with
  | none => -1
  | some e => (e : Int)

/-- `idMatches.filter((match) => match.index > monitorsStartPos && match.index < monitorsEndPos)`. -/
def filteredIdMatches (cfg : List Char) : List FMatch :=
  (fieldMatches idKey cfg).filter (fun m =>
    monitorsStartPos cfg < (m.index : Int) && (m.index : Int) < monitorsEndPos cfg)

/-- Same filter for the `name:` matches. -/
def filteredNameMatches (cfg : List Char) : List FMatch :=
  (fieldMatches nameKey cfg).filter (fun m =>
    monitorsStartPos cfg < (m.index : Int) && (m.index : Int) < monitorsEndPos cfg)

/-- The body of `extractMonitorIds` on the text of the config file: the
guard `monitorsStartPos === -1 || monitorsEndPos === -1` returns `[]`,
otherwise the loop `for i < Math.min(...)` pairs the i-th filtered id match
with the i-th filtered name match (`zip` truncates to the shorter list). -/
def extractFromContent (cfg : List Char) : List Monitor :=
  if monitorsStartPos cfg = -1 || monitorsEndPos cfg = -1 then []
  else
    ((filteredIdMatches cfg).zip (filteredNameMatches cfg)).map
      (fun p => ⟨p.1.value, p.2.value⟩)

/-- `extractMonitorIds`: the whole body runs inside `try ... catch`, and the
`catch` (a failed `readFileSync`) returns `[]`; a failed read is the `none`
case of the argument. -/
def extractMonitorIds : Option (List Char) → List Monitor
  | none => []
  | some cfg => extractFromContent cfg

/-- One rendered option record:
`        - label: '${monitor.id} - ${monitor.name}'\n          value: '${monitor.id}'`. -/
def renderOption (m : Monitor) : List Char :=
  ("        - label: ".data) ++ [sqCh] ++ m.id ++ (" - ".data) ++ m.name ++ [sqCh] ++
  ("\n          value: ".data) ++ [sqCh] ++ m.id ++ [sqCh]

/-- `Array.prototype.join('\n')`. -/
def joinNl : List (List Char) → List Char
  | [] => []
  | [x] => x
  | x :: y :: tl => x ++ '\n' :: joinNl (y :: tl)

/-- `monitors.map(renderOption).join('\n')`. -/
def monitorOptions (ms : List Monitor) : List Char := joinNl (ms.map renderOption)

/-- The synthetic trailing record `- label: 'All monitors' / value: 'all'`. -/
def allMonitorsRecord : List Char :=
  ("        - label: ".data) ++ [sqCh] ++ ("All monitors".data) ++ [sqCh] ++
  ("\n          value: ".data) ++ [sqCh] ++ ("all".data) ++ [sqCh]

/-- `allOptions = monitorOptions + '\n        - label: ...'`. -/
def allOptions (ms : List Monitor) : List Char :=
  monitorOptions ms ++ '\n' :: allMonitorsRecord

def optsMarker : List Char := "options:".data

/-- The first alternative `\n\n` of the terminator group. -/
def nlnl : List Char := ['\n', '\n']

/-- The second alternative `\n  - type:` of the terminator group. -/
def nlTypeTerm : List Char := "\n  - type:".data

/-- The lazy `([\s\S]*?)(\n\n|\n  - type:)`: the shortest middle such that a
terminator follows, the `\n\n` alternative preferred at equal positions.
Returns `(group2, group3, rest)`. -/
def findTerm : List Char → Option (List Char × List Char × List Char)
  | [] => none
  | c :: tl =>
    if nlnl.isPrefixOf (c :: tl) then some ([], nlnl, (c :: tl).drop 2)
    else if nlTypeTerm.isPrefixOf (c :: tl) then some ([], nlTypeTerm, (c :: tl).drop 10)
    else
      match findTerm tl with
      | some (g2, g3, rest) => some (c :: g2, g3, rest)
      | none => none

/-- Backtracking of the greedy `\s*` in `(options:\s*\n)`: the engine tries
the largest split first, so `tryKs u (k+1)` tries the `\n` at offset `k`,
then smaller offsets.  On success it returns
`(tail of group1, group2, group3, rest)`. -/
def tryKs (u : List Char) : Nat → Option (List Char × List Char × List Char × List Char)
  | 0 => none
  | k + 1 =>
    if u[k]? = some '\n' then
      match findTerm (u.drop (k + 1)) with
      | some (g2, g3, rest) => some (u.take (k + 1), g2, g3, rest)
      | none => tryKs u k
    else tryKs u k

/-- Length of the maximal `\s` run at the head of `u`. -/
def wsRunLen (u : List Char) : Nat := (u.takeWhile isWs).length

/-- Match `\s*\n` then the lazy middle and the terminator against `u`
(the text just after a literal `options:`). -/
def matchTail (u : List Char) : Option (List Char × List Char × List Char × List Char) :=
  tryKs u (wsRunLen u)

/-- Decomposition of a successful match of
`(options:\s*\n)([\s\S]*?)(\n\n|\n  - type:)`: the text is
`pre ++ g1 ++ g2 ++ g3 ++ post` and the match spans `g1 ++ g2 ++ g3`. -/
structure OptsMatch where
  pre : List Char
  g1 : List Char
  g2 : List Char
  g3 : List Char
  post : List Char
deriving DecidableEq

/-- Try the full pattern at the head of `s`. -/
def tryMatch (s : List Char) : Option (List Char × List Char × List Char × List Char) :=
  if optsMarker.isPrefixOf s then
    match matchTail (s.drop 8) with
    | some (g1t, g2, g3, rest) => some (optsMarker ++ g1t, g2, g3, rest)
    | none => none
  else none

/-- The leftmost match of the options pattern (a non-global `replace`
rewrites exactly this occurrence). -/
def findSplit : List Char → Option OptsMatch
  | [] => none
  | c :: tl =>
    match tryMatch (c :: tl) with
    | some (g1, g2, g3, rest) => some ⟨[], g1, g2, g3, rest⟩
    | none => (findSplit tl).map (fun m => ⟨c :: m.pre, m.g1, m.g2, m.g3, m.post⟩)

/-- `$nn` two-digit capture reference (groups 1..3), per ECMA-262
`GetSubstitution`. -/
def twoDigitGroup (c d : Char) : Option Nat :=
  if c.isDigit && d.isDigit then
    let n := 10 * (c.toNat - 48) + (d.toNat - 48)
    if 1 ≤ n && n ≤ 3 then some n else none
  else none

/-- `$n` one-digit capture reference (groups 1..3). -/
def oneDigitGroup (c : Char) : Option Nat :=
  if c.isDigit then
    let n := c.toNat - 48
    if 1 ≤ n && n ≤ 3 then some n else none
  else none

/-- The value of capture group `n` of the options pattern. -/
def groupVal (g1 g2 g3 : List Char) : Nat → List Char
  | 1 => g1
  | 2 => g2
  | 3 => g3
  | _ => []

/-- ECMA-262 `GetSubstitution` for a match with three capture groups:
`$$`, `$&`, `` $` ``, `$'`, `$n` and `$nn` are interpreted, any other `$`
is literal.  `pre`/`post` are the target text before/after the match. -/
def getSubst (pre post g1 g2 g3 : List Char) : List Char → List Char
  | [] => []
  | [c] => [c]
  | c :: c2 :: r =>
    if c = '$' then
      if c2 = '$' then '$' :: getSubst pre post g1 g2 g3 r
      else if c2 = '&' then (g1 ++ g2 ++ g3) ++ getSubst pre post g1 g2 g3 r
      else if c2 = bqCh then pre ++ getSubst pre post g1 g2 g3 r
      else if c2 = sqCh then post ++ getSubst pre post g1 g2 g3 r
      else
        match r with
        | d :: r2 =>
          match twoDigitGroup c2 d with
          | some n => groupVal g1 g2 g3 n ++ getSubst pre post g1 g2 g3 r2
          | none =>
            match oneDigitGroup c2 with
            | some n => groupVal g1 g2 g3 n ++ getSubst pre post g1 g2 g3 (d :: r2)
            | none => '$' :: c2 :: getSubst pre post g1 g2 g3 (d :: r2)
        | [] =>
          match oneDigitGroup c2 with
          | some n => groupVal g1 g2 g3 n
          | none => ['$', c2]
    else c :: getSubst pre post g1 g2 g3 (c2 :: r)

/-- The replacement template `` `$1${allOptions}$3` ``. -/
def replacementTemplate (allOpts : List Char) : List Char :=
  '$' :: '1' :: (allOpts ++ ['$', '3'])

/-- `templateContent.replace(optionsRegex, replacement)`: rewrite the
leftmost match, return the text unchanged when there is none. -/
def updatedContent (tmpl allOpts : List Char) : List Char :=
  match findSplit tmpl with
  | none => tmpl
  | some m =>
    m.pre ++ getSubst m.pre m.post m.g1 m.g2 m.g3 (replacementTemplate allOpts) ++ m.post

/-- `updateIssueTemplate`: `false` and no change when the template file does
not exist; otherwise replace and write, returning `true`.  The pair is
(returned boolean, template file content after the call). -/
def updateIssueTemplate (templateExists : Bool) (tmpl : List Char) (ms : List Monitor) :
    Bool × List Char :=
  if templateExists then (true, updatedContent tmpl (allOptions ms))
  else (false, tmpl)

/-- `main`: extract, abort with exit code 1 when no monitors were found,
otherwise patch; exit 0 on reported success, 1 otherwise.  The pair is
(exit code, template file content at exit). -/
def mainRun (cfgRead : Option (List Char)) (templateExists : Bool) (tmpl : List Char) :
    Nat × List Char :=
  let ms := extractMonitorIds cfgRead
  if ms.length = 0 then (1, tmpl)
  else
    let r := updateIssueTemplate templateExists tmpl ms
    if r.1 then (0, r.2) else (1, r.2)

/-- Every newline of the text is followed by at least three spaces inside
the text.  A rendered option block has this shape, which is what keeps the
terminator search from firing inside it. -/
def lineSafeB : List Char → Bool
  | [] => true
  | c :: rest => (decide (c ≠ '\n') || decide (rest.take 3 = [' ', ' ', ' '])) && lineSafeB rest

/-- No newline among the last three characters of the text. -/
def noNlTail3 (l : List Char) : Bool :=
  (l.drop (l.length - 3)).all (fun c => decide (c ≠ '\n'))

/-- Wrap a value in the single-quote delimiter (test-input plumbing). -/
def quoted (s : List Char) : List Char := sqCh :: (s ++ [sqCh])

/-- A small configuration text with the two monitors of the spec's concrete
scenario. -/
def demoCfg : List Char :=
  ("monitors: [ id: ".data) ++ quoted ("foo_monitor".data) ++
  (", name: ".data) ++ quoted ("My API Monitor".data) ++
  (", id: ".data) ++ quoted ("test_tcp_monitor".data) ++
  (", name: ".data) ++ quoted ("Example TCP Monitor".data) ++ (" ]".data)

/-- A monitors-array body whose records carry a nested bracketed field. -/
def demoNestedBody : List Char :=
  (" id: ".data) ++ quoted ("foo_monitor".data) ++
  (", name: ".data) ++ quoted ("My API".data) ++
  (", expectedCodes: [200], id: ".data) ++ quoted ("tcp".data) ++
  (", name: ".data) ++ quoted ("TCP".data) ++ (" ".data)

/-- The two monitors of the spec's concrete scenario. -/
def demoMonitors : List Monitor :=
  [⟨"foo_monitor".data, "My API Monitor".data⟩,
   ⟨"test_tcp_monitor".data, "Example TCP Monitor".data⟩]

/-- A small issue-template text with one dropdown options section. -/
def demoTmpl : List Char :=
  ("name: Maintenance\n  - type: dropdown\n    attributes:\n      options:\n        - label: OLD\n          value: old\n\n  - type: textarea\nend".data)

/-- A template text with no occurrence of the options pattern. -/
def demoTmplNoOpts : List Char :=
  ("name: maintenance\ndescription: select monitors\nend".data)

/-- A minimal template text with one options region. -/
def tmplTiny : List Char := ("options:\nX\n\nY".data)

/-- A template text in which the options pattern matches at two positions
(0 and 10), the second occurrence lying inside the first match's middle. -/
def demoTmplTwice : List Char := ("options:\nA\noptions:\nB\n\nrest".data)

/-- A monitor whose id contains a blank line (breaks idempotence). -/
def monitorNlId : Monitor := ⟨('a' :: '\n' :: '\n' :: 'b' :: []), ("n".data)⟩

/-- A monitor whose id contains a `$2` capture reference (breaks idempotence). -/
def monitorDollarId : Monitor := ⟨("a$2b".data), ("n".data)⟩

/-- A configuration text with no monitors declared at all. -/
def demoCfgNoMonitors : List Char := ("const x = 1".data)

/-- A configuration whose quoted values open and close with different
delimiters: the id opens with `'` and closes with `"`, the name opens with
`"` and closes with a backtick. -/
def demoCfgMismatch : List Char :=
  ("monitors: [ id: ".data) ++ sqCh :: ("a".data) ++ '"' :: (", name: ".data) ++
  '"' :: ("b".data) ++ bqCh :: (" ]".data)

/-- Depth tracking of the bracket scan through a text chunk: `some d'` when
the scan walks the whole chunk without answering (no `]` at depth zero),
updating the counter exactly as `scanClose` does. -/
def scanDepth : List Char → Nat → Option Nat
  | [], d => some d
  | c :: tl, d =>
    if c = '[' then scanDepth tl (d + 1)
    else if c = ']' then
      if d = 0 then none else scanDepth tl (d - 1)
    else scanDepth tl d

/-- C10: `extractMonitorIds` never propagates an exception: in the model
every error raised while reading the configuration file is the `none`
input, which the catch-all turns into `[]` — indistinguishable at the
interface from a configuration that declares no monitors. -/
theorem extractMonitorIds_never_throws :
    extractMonitorIds none = [] ∧
    extractMonitorIds (some demoCfgNoMonitors) = [] ∧
    extractMonitorIds none = extractMonitorIds (some demoCfgNoMonitors) := by
  refine ⟨rfl, by decide, by decide⟩

/-- C5: when the `monitors: [` marker does not occur, or no balancing `]`
follows it, extraction returns `[]` without crashing and the pipeline exits
with status 1 before any write, leaving the template untouched. -/
theorem extract_missing_region (cfg : List Char)
    (h : indexOfL monitorsMarker cfg = none ∨ monitorsEndPos cfg = -1) :
    extractFromContent cfg = [] ∧
    ∀ (ex : Bool) (tmpl : List Char), mainRun (some cfg) ex tmpl = (1, tmpl) := by
  have hext : extractFromContent cfg = [] := by
    unfold extractFromContent
    rcases h with h | h
    · simp [monitorsStartPos, h]
    · simp [h]
  refine ⟨hext, fun ex tmpl => ?_⟩
  simp [mainRun, extractMonitorIds, hext]

/-- C5 witness: a configuration text without the marker. -/
theorem extract_missing_region_witness :
    extractFromContent demoCfgNoMonitors = [] ∧
    mainRun (some demoCfgNoMonitors) true demoTmpl = (1, demoTmpl) := by
  have h := extract_missing_region demoCfgNoMonitors (Or.inl (by decide))
  exact ⟨h.1, h.2 true demoTmpl⟩

/-- C1 counterexample: on a template with no occurrence of the options
pattern, `updateIssueTemplate` does NOT signal failure: it writes the
unchanged content back, returns `true`, and the pipeline exits with
status 0 — contradicting the claimed `MissingTargetError` behaviour. -/
theorem patch_no_marker_cex :
    findSplit demoTmplNoOpts = none ∧
    updateIssueTemplate true demoTmplNoOpts demoMonitors = (true, demoTmplNoOpts) ∧
    mainRun (some demoCfg) true demoTmplNoOpts = (0, demoTmplNoOpts) := by
  refine ⟨by decide, by decide, by decide⟩

/-- C1 amended: when the options pattern matches nowhere in the template,
the replacement is the identity — the document content is unchanged — but
`updateIssueTemplate` still reports success, and a run that extracted at
least one monitor exits with status 0. -/
theorem patch_no_marker_silent_success (tmpl : List Char) (ms : List Monitor)
    (h : findSplit tmpl = none) :
    updateIssueTemplate true tmpl ms = (true, tmpl) ∧
    ∀ cfg, extractFromContent cfg ≠ [] → mainRun (some cfg) true tmpl = (0, tmpl) := by
  have hup : ∀ b, updatedContent tmpl b = tmpl := by
    intro b; unfold updatedContent; rw [h]
  constructor
  · simp [updateIssueTemplate, hup]
  · intro cfg hcfg
    have hlen : (extractFromContent cfg).length ≠ 0 := by
      simpa [List.length_eq_zero] using hcfg
    simp [mainRun, extractMonitorIds, hlen, updateIssueTemplate, hup]

/-- C1 amended witness. -/
theorem patch_no_marker_silent_success_witness :
    updateIssueTemplate true demoTmplNoOpts demoMonitors = (true, demoTmplNoOpts) ∧
    mainRun (some demoCfg) true demoTmplNoOpts = (0, demoTmplNoOpts) := by
  have h := patch_no_marker_silent_success demoTmplNoOpts demoMonitors (by decide)
  exact ⟨h.1, h.2 demoCfg (by decide)⟩

/-- `join('\n')` of a list with one record appended. -/
theorem joinNl_append_singleton (xs : List (List Char)) (y : List Char) (h : xs ≠ []) :
    joinNl (xs ++ [y]) = joinNl xs ++ '\n' :: y := by
  induction xs with
  | nil => exact absurd rfl h
  | cons x tl ih =>
    cases tl with
    | nil => simp [joinNl]
    | cons x2 tl2 =>
      have := ih (by simp)
      simp only [List.cons_append, joinNl] at this ⊢
      simp [this]

/-- C7 counterexample: for the empty collection the rendered block is a
stray leading newline followed by the lone "All monitors" record — the
code computes `'' + '\n        - label: ...'` — which is not the
newline-join of the (zero) per-entry records with the trailing record, so
the claimed record structure fails at `[]`. -/
theorem optionBlock_empty_cex :
    allOptions [] = '\n' :: allMonitorsRecord ∧
    allOptions [] ≠ joinNl (([] : List Monitor).map renderOption ++ [allMonitorsRecord]) := by
  refine ⟨by decide, by decide⟩

/-- C7 amended: for every NONEMPTY monitor collection, the rendered block
is the newline-join of one fixed two-line record per entry (label
combining id and name, value equal to the id), in input order, plus
exactly one trailing "All monitors" record whose selectable value is the
sentinel `all`; a collection of two entries yields exactly three records.
For the empty collection the block instead carries a stray leading
newline before the lone "All monitors" record. -/
theorem optionBlock_records (ms : List Monitor) (h : ms ≠ []) :
    allOptions ms = joinNl (ms.map renderOption ++ [allMonitorsRecord]) ∧
    (ms.map renderOption ++ [allMonitorsRecord]).length = ms.length + 1 ∧
    (∀ m : Monitor, renderOption m =
      (("        - label: ".data) ++ [sqCh] ++ m.id ++ (" - ".data) ++ m.name ++ [sqCh]) ++
      '\n' :: (("          value: ".data) ++ [sqCh] ++ m.id ++ [sqCh])) ∧
    allMonitorsRecord =
      (("        - label: ".data) ++ [sqCh] ++ ("All monitors".data) ++ [sqCh]) ++
      '\n' :: (("          value: ".data) ++ [sqCh] ++ ("all".data) ++ [sqCh]) ∧
    (∀ m1 m2 : Monitor, allOptions [m1, m2] =
      renderOption m1 ++ '\n' :: (renderOption m2 ++ '\n' :: allMonitorsRecord)) := by
  refine ⟨?_, by simp, ?_, by decide, ?_⟩
  · rw [joinNl_append_singleton _ _ (by simpa using h)]
    rfl
  · intro m
    simp [renderOption]
  · intro m1 m2
    simp [allOptions, monitorOptions, joinNl]

/-- C7 amended witness: the spec's two-monitor scenario renders three
records. -/
theorem optionBlock_records_witness :
    allOptions demoMonitors =
      joinNl (demoMonitors.map renderOption ++ [allMonitorsRecord]) ∧
    (demoMonitors.map renderOption ++ [allMonitorsRecord]).length = 3 :=
  ⟨(optionBlock_records demoMonitors (by decide)).1,
   (optionBlock_records demoMonitors (by decide)).2.1⟩

/-- C3: when the monitors region is found, the extractor emits exactly
`min` of the two filtered match counts, pairing the i-th filtered id match
with the i-th filtered name match; excess matches of the longer filtered
list are dropped by the truncation. -/
theorem extract_min_pairing (cfg : List Char)
    (h1 : monitorsStartPos cfg ≠ -1) (h2 : monitorsEndPos cfg ≠ -1) :
    (extractFromContent cfg).length =
      min (filteredIdMatches cfg).length (filteredNameMatches cfg).length ∧
    ∀ (i : Nat) (a b : FMatch), (filteredIdMatches cfg)[i]? = some a →
      (filteredNameMatches cfg)[i]? = some b →
      (extractFromContent cfg)[i]? = some (⟨a.value, b.value⟩ : Monitor) := by
  have he : extractFromContent cfg =
      ((filteredIdMatches cfg).zip (filteredNameMatches cfg)).map
        (fun p => ⟨p.1.value, p.2.value⟩) := by
    unfold extractFromContent
    simp [h1, h2]
  constructor
  · rw [he]; simp [List.length_zip]
  · intro i a b ha hb
    rw [he, List.getElem?_map]
    have hz : ((filteredIdMatches cfg).zip (filteredNameMatches cfg))[i]? = some (a, b) := by
      rw [List.getElem?_zip_eq_some]
      exact ⟨ha, hb⟩
    rw [hz]
    rfl

/-- C3 witness: the two-monitor demo configuration. -/
theorem extract_min_pairing_witness :
    (extractFromContent demoCfg).length =
      min (filteredIdMatches demoCfg).length (filteredNameMatches demoCfg).length ∧
    (extractFromContent demoCfg)[0]? = some ⟨"foo_monitor".data, "My API Monitor".data⟩ := by
  have h := extract_min_pairing demoCfg (by decide) (by decide)
  refine ⟨h.1, ?_⟩
  have := h.2 0 ((filteredIdMatches demoCfg).head (by decide))
    ((filteredNameMatches demoCfg).head (by decide)) (by decide) (by decide)
  simpa using this

/-- The bracket scan passes through a chunk it never answers inside,
carrying its depth across to the remainder. -/
theorem scanClose_append_of_scanDepth (body : List Char) :
    ∀ (d d' : Nat) (rest : List Char) (i : Nat), scanDepth body d = some d' →
      scanClose (body ++ rest) i d = scanClose rest (i + body.length) d' := by
  induction body with
  | nil =>
    intro d d' rest i h
    simp only [scanDepth, Option.some.injEq] at h
    subst h
    simp
  | cons c tl ih =>
    intro d d' rest i h
    simp only [scanDepth] at h
    simp only [List.cons_append, scanClose, List.append_eq]
    by_cases h1 : c = '['
    · simp only [if_pos h1] at h ⊢
      rw [ih _ _ _ _ h]
      simp only [List.length_cons]
      ring_nf
    · simp only [if_neg h1] at h ⊢
      by_cases h2 : c = ']'
      · simp only [if_pos h2] at h ⊢
        by_cases h3 : d = 0
        · simp [h3] at h
        · simp only [if_neg h3] at h ⊢
          rw [ih _ _ _ _ h]
          simp only [List.length_cons]
          ring_nf
      · simp only [if_neg h2] at h ⊢
        rw [ih _ _ _ _ h]
        simp only [List.length_cons]
        ring_nf

/-- `indexOf` finds an occurrence sitting at the very head of the text. -/
theorem indexOfL_of_head {pat s : List Char} (h : pat.isPrefixOf s = true)
    (hne : s ≠ []) : indexOfL pat s = some 0 := by
  cases s with
  | nil => exact absurd rfl hne
  | cons c tl => simp [indexOfL, h]

/-- The marker at position 0 is found there. -/
theorem monitorsStartPos_of_head (rest : List Char) :
    monitorsStartPos (monitorsMarker ++ rest) = 0 := by
  unfold monitorsStartPos
  rw [indexOfL_of_head (by simp) (by simp [monitorsMarker])]
  rfl

/-- C4: for a configuration `monitors: [` ++ body ++ `]` ++ post whose body
is bracket-balanced (the depth counter never answers inside it), the
region-closing scan does not terminate early: it stops exactly at the
outer `]`, and when the body declares `N` id matches and `N` name matches
inside the region the extractor emits exactly `N` entries. -/
theorem nested_brackets_region (body post : List Char) (N : Nat)
    (hb : scanDepth body 0 = some 0)
    (hid : (filteredIdMatches (monitorsMarker ++ (body ++ ']' :: post))).length = N)
    (hname : (filteredNameMatches (monitorsMarker ++ (body ++ ']' :: post))).length = N) :
    monitorsEndPos (monitorsMarker ++ (body ++ ']' :: post)) =
      ((monitorsMarker.length + body.length : Nat) : Int) ∧
    (extractFromContent (monitorsMarker ++ (body ++ ']' :: post))).length = N := by
  have hstart : monitorsStartPos (monitorsMarker ++ (body ++ ']' :: post)) = 0 :=
    monitorsStartPos_of_head _
  have hend : monitorsEndPos (monitorsMarker ++ (body ++ ']' :: post)) =
      ((monitorsMarker.length + body.length : Nat) : Int) := by
    unfold monitorsEndPos
    rw [hstart]
    have hst : ((0 : Int) + ((monitorsMarker.length : Nat) : Int)).toNat = monitorsMarker.length := by
      simp
    rw [hst]
    show (match scanClose
        (List.drop monitorsMarker.length (monitorsMarker ++ (body ++ ']' :: post)))
        monitorsMarker.length 0 with
      | none => (-1 : Int)
      | some e => (e : Int)) = ((monitorsMarker.length + body.length : Nat) : Int)
    rw [List.drop_left,
      scanClose_append_of_scanDepth body 0 0 (']' :: post) monitorsMarker.length hb]
    simp [scanClose]
  refine ⟨hend, ?_⟩
  unfold extractFromContent
  rw [if_neg]
  · simp [List.length_zip, hid, hname]
  · rw [hstart, hend]
    simp only [Bool.or_eq_true, decide_eq_true_eq, not_or]
    constructor
    · decide
    · intro hcontra
      omega

theorem nested_brackets_region_witness :
    monitorsEndPos (monitorsMarker ++ demoNestedBody ++ ']' :: (" rest".data)) =
      ((monitorsMarker.length + demoNestedBody.length : Nat) : Int) ∧
    (extractFromContent (monitorsMarker ++ demoNestedBody ++ ']' :: (" rest".data))).length = 2 :=
  nested_brackets_region demoNestedBody (" rest".data) 2 (by decide) (by decide) (by decide)

/-- Soundness of one field-pattern match attempt: the matched span is
exactly `key`, `:`, a whitespace run, one quote delimiter, the nonempty
quote-free captured value, and one quote delimiter (the two delimiters are
not required to coincide). -/
theorem tryField_sound {key s w : List Char} {q1 : Char} {v : List Char} {q2 : Char}
    (h : tryField key s = some (w, q1, v, q2)) :
    isQuoteCh q1 = true ∧ isQuoteCh q2 = true ∧ v ≠ [] ∧
    (∀ c ∈ v, isQuoteCh c = false) ∧ (∀ c ∈ w, isWs c = true) ∧
    s.take (fmLen key w v) = key ++ ':' :: (w ++ q1 :: (v ++ [q2])) := by
  unfold tryField at h
  by_cases hp : (key ++ [':']).isPrefixOf s = true
  swap
  · rw [if_neg hp] at h; exact absurd h (by simp)
  rw [if_pos hp] at h
  simp only [] at h
  set s1 := s.drop (key.length + 1) with hs1
  set w0 := s1.takeWhile isWs with hw0
  rcases hq1 : s1.drop w0.length with _ | ⟨c1, s2⟩
  · rw [hq1] at h; exact absurd h (by simp)
  rw [hq1] at h
  simp only [] at h
  by_cases hqc : isQuoteCh c1 = true
  swap
  · rw [if_neg hqc] at h; exact absurd h (by simp)
  rw [if_pos hqc] at h
  set v0 := s2.takeWhile (fun c => !(isQuoteCh c)) with hv0
  rcases hq2 : s2.drop v0.length with _ | ⟨c2, s3⟩
  · rw [hq2] at h; exact absurd h (by simp)
  rw [hq2] at h
  simp only [] at h
  by_cases hv0e : v0 = []
  · rw [if_pos hv0e] at h; exact absurd h (by simp)
  rw [if_neg hv0e] at h
  by_cases hqc2 : isQuoteCh c2 = true
  swap
  · rw [if_neg hqc2] at h; exact absurd h (by simp)
  rw [if_pos hqc2, Option.some_inj, Prod.mk.injEq, Prod.mk.injEq, Prod.mk.injEq] at h
  obtain ⟨hww, hq1e, hvv, hq2e⟩ := h
  subst hww hq1e hvv hq2e
  refine ⟨hqc, hqc2, hv0e, ?_, ?_, ?_⟩
  · intro c hc
    have := List.mem_takeWhile_imp (hv0 ▸ hc)
    simpa using this
  · intro c hc
    exact List.mem_takeWhile_imp (hw0 ▸ hc)
  · have hsplit1 : s = (key ++ [':']) ++ s1 := by
      have hpre : (key ++ [':']) <+: s := by simpa using hp
      rw [List.prefix_iff_eq_take] at hpre
      conv_lhs => rw [← List.take_append_drop (key.length + 1) s]
      rw [← hs1]
      congr 1
      simpa [List.length_append] using hpre.symm
    have hsplit2 : s1 = w0 ++ c1 :: s2 := by
      conv_lhs => rw [← List.take_append_drop w0.length s1]
      rw [hq1]
      congr 1
      have := List.prefix_iff_eq_take.mp (List.takeWhile_prefix (l := s1) isWs)
      rw [← hw0] at this
      exact this.symm
    have hsplit3 : s2 = v0 ++ c2 :: s3 := by
      conv_lhs => rw [← List.take_append_drop v0.length s2]
      rw [hq2]
      congr 1
      have := List.prefix_iff_eq_take.mp
        (List.takeWhile_prefix (l := s2) (fun c => !(isQuoteCh c)))
      rw [← hv0] at this
      exact this.symm
    rw [hsplit1, hsplit2, hsplit3]
    have hlen : ((key ++ [':']) ++ (w0 ++ c1 :: (v0 ++ [c2]))).length = fmLen key w0 v0 := by
      simp [fmLen, List.length_append]
      omega
    calc ((key ++ [':']) ++ (w0 ++ c1 :: (v0 ++ c2 :: s3))).take (fmLen key w0 v0)
        = (((key ++ [':']) ++ (w0 ++ c1 :: (v0 ++ [c2]))) ++ s3).take (fmLen key w0 v0) := by
          congr 1
          simp
      _ = (key ++ [':']) ++ (w0 ++ c1 :: (v0 ++ [c2])) := List.take_left' hlen
      _ = key ++ ':' :: (w0 ++ c1 :: (v0 ++ [c2])) := by simp

/-- Soundness of the `matchAll` scan, tracking absolute positions: every
reported match reconstructs its span verbatim from the scanned text. -/
theorem fieldMatchesFuel_sound (key : List Char) :
    ∀ (fuel : Nat) (t : List Char) (i : Nat) (s : List Char), s.drop i = t →
      ∀ m ∈ fieldMatchesFuel key fuel t i,
        isQuoteCh m.openQ = true ∧ isQuoteCh m.closeQ = true ∧ m.value ≠ [] ∧
        (∀ c ∈ m.value, isQuoteCh c = false) ∧ (∀ c ∈ m.ws, isWs c = true) ∧
        (s.drop m.index).take (fmLen key m.ws m.value) =
          key ++ ':' :: (m.ws ++ m.openQ :: (m.value ++ [m.closeQ])) := by
  intro fuel
  induction fuel with
  | zero =>
    intro t i s hdrop m hm
    simp [fieldMatchesFuel] at hm
  | succ fuel ih =>
    intro t i s hdrop m hm
    cases t with
    | nil => simp [fieldMatchesFuel] at hm
    | cons c tl =>
      rw [fieldMatchesFuel] at hm
      rcases htf : tryField key (c :: tl) with _ | ⟨w, q1, v, q2⟩
      · rw [htf] at hm
        have h1 : s.drop (i + 1) = tl := by
          rw [← List.drop_drop 1 i s, hdrop]
          rfl
        exact ih tl (i + 1) s h1 m hm
      · rw [htf] at hm
        simp only [] at hm
        rcases List.mem_cons.mp hm with hm | hm
        · subst hm
          have hs := tryField_sound htf
          refine ⟨hs.1, hs.2.1, hs.2.2.1, hs.2.2.2.1, hs.2.2.2.2.1, ?_⟩
          rw [hdrop]
          exact hs.2.2.2.2.2
        · have h1 : s.drop (i + fmLen key w v) = (c :: tl).drop (fmLen key w v) := by
            rw [← List.drop_drop (fmLen key w v) i s, hdrop]
          exact ih _ (i + fmLen key w v) s h1 m hm

/-- C8 counterexample: the character class accepts any of the three quote
characters on each side independently, so a value opened with `'` and
closed with `"` is matched and extracted — delimiters need not match. -/
theorem quote_mismatch_cex :
    (fieldMatches idKey demoCfgMismatch).map (fun m => (m.openQ, m.closeQ)) = [(sqCh, '"')] ∧
    (fieldMatches nameKey demoCfgMismatch).map (fun m => (m.openQ, m.closeQ)) = [('"', bqCh)] ∧
    ¬ sqCh = '"' ∧
    extractFromContent demoCfgMismatch = [⟨"a".data, "b".data⟩] := by
  exact ⟨by decide, by decide, by decide, by decide⟩

/-- C8 amended: each captured value is taken verbatim (no escape
processing) from between two quote delimiters, each independently one of
single, double, or backtick — the two delimiters are not required to be
the same character; the value itself is nonempty and quote-free. -/
theorem field_match_sound (key s : List Char) :
    ∀ m ∈ fieldMatches key s,
      isQuoteCh m.openQ = true ∧ isQuoteCh m.closeQ = true ∧ m.value ≠ [] ∧
      (∀ c ∈ m.value, isQuoteCh c = false) ∧ (∀ c ∈ m.ws, isWs c = true) ∧
      (s.drop m.index).take (fmLen key m.ws m.value) =
        key ++ ':' :: (m.ws ++ m.openQ :: (m.value ++ [m.closeQ])) :=
  fieldMatchesFuel_sound key s.length s 0 s (by simp)

/-- C8 amended witness: the mismatched-delimiter id match of the demo
configuration satisfies the verbatim-capture soundness statement. -/
theorem field_match_sound_witness :
    isQuoteCh sqCh = true ∧ isQuoteCh '"' = true ∧ ("a".data) ≠ [] ∧
    (∀ c ∈ ("a".data), isQuoteCh c = false) ∧ (∀ c ∈ [' '], isWs c = true) ∧
    (demoCfgMismatch.drop 12).take (fmLen idKey [' '] ("a".data)) =
      idKey ++ ':' :: ([' '] ++ sqCh :: (("a".data) ++ ['"'])) :=
  field_match_sound idKey demoCfgMismatch ⟨12, [' '], sqCh, ("a".data), '"'⟩ (by decide)

/-- `findTerm` at a blank-line terminator sitting at the head. -/
theorem findTerm_nlnl (y : List Char) : findTerm (nlnl ++ y) = some ([], nlnl, y) := by
  show findTerm ('\n' :: '\n' :: y) = some ([], nlnl, y)
  rw [findTerm, if_pos (by simp [nlnl, List.isPrefixOf])]
  simp

/-- `findTerm` at a next-field terminator sitting at the head. -/
theorem findTerm_nlType (y : List Char) :
    findTerm (nlTypeTerm ++ y) = some ([], nlTypeTerm, y) := by
  show findTerm ('\n' :: ' ' :: ' ' :: '-' :: ' ' :: 't' :: 'y' :: 'p' :: 'e' :: ':' :: y) =
    some ([], nlTypeTerm, y)
  rw [findTerm, if_neg (by simp [nlnl, List.isPrefixOf]),
    if_pos (by simp [nlTypeTerm, List.isPrefixOf])]
  simp

/-- `findTerm` decomposes its input, and the terminator is one of the two
alternatives of the group. -/
theorem findTerm_sound : ∀ {v g2 g3 rest : List Char},
    findTerm v = some (g2, g3, rest) →
    v = g2 ++ (g3 ++ rest) ∧ (g3 = nlnl ∨ g3 = nlTypeTerm) := by
  intro v
  induction v with
  | nil => intro g2 g3 rest h; simp [findTerm] at h
  | cons c tl ih =>
    intro g2 g3 rest h
    rw [findTerm] at h
    by_cases h1 : nlnl.isPrefixOf (c :: tl) = true
    · rw [if_pos h1] at h
      rw [Option.some_inj, Prod.mk.injEq, Prod.mk.injEq] at h
      obtain ⟨h2, h3, h4⟩ := h
      subst h2 h3 h4
      refine ⟨?_, Or.inl rfl⟩
      have := List.prefix_iff_eq_take.mp (by simpa using h1)
      conv_lhs => rw [← List.take_append_drop 2 (c :: tl)]
      rw [List.nil_append]
      congr 1
      exact this.symm
    · rw [if_neg h1] at h
      by_cases h2 : nlTypeTerm.isPrefixOf (c :: tl) = true
      · rw [if_pos h2] at h
        rw [Option.some_inj, Prod.mk.injEq, Prod.mk.injEq] at h
        obtain ⟨h3, h4, h5⟩ := h
        subst h3 h4 h5
        refine ⟨?_, Or.inr rfl⟩
        have := List.prefix_iff_eq_take.mp (by simpa using h2)
        conv_lhs => rw [← List.take_append_drop 10 (c :: tl)]
        rw [List.nil_append]
        congr 1
        exact this.symm
      · rw [if_neg h2] at h
        rcases hft : findTerm tl with _ | ⟨a, b, r⟩
        · rw [hft] at h; exact absurd h (by simp)
        · rw [hft] at h
          simp only [Option.some_inj, Prod.mk.injEq] at h
          obtain ⟨h3, h4, h5⟩ := h
          subst h3 h4 h5
          obtain ⟨hd, hg⟩ := ih hft
          exact ⟨by rw [List.cons_append, ← hd], hg⟩

/-- A terminator occurrence somewhere in the text makes `findTerm` succeed. -/
theorem findTerm_isSome_append (x g3 y : List Char) (hg : g3 = nlnl ∨ g3 = nlTypeTerm) :
    findTerm (x ++ (g3 ++ y)) ≠ none := by
  induction x with
  | nil =>
    rw [List.nil_append]
    rcases hg with h | h <;> subst h
    · rw [findTerm_nlnl]; simp
    · rw [findTerm_nlType]; simp
  | cons c tl ih =>
    rw [List.cons_append, findTerm]
    by_cases h1 : nlnl.isPrefixOf (c :: (tl ++ (g3 ++ y))) = true
    · rw [if_pos h1]; simp
    · rw [if_neg h1]
      by_cases h2 : nlTypeTerm.isPrefixOf (c :: (tl ++ (g3 ++ y))) = true
      · rw [if_pos h2]; simp
      · rw [if_neg h2]
        rcases hft : findTerm (tl ++ (g3 ++ y)) with _ | ⟨a, b, r⟩
        · exact absurd hft ih
        · simp

/-- Inside a line-safe block (each newline followed by three spaces),
neither terminator alternative can fire early: the search walks the whole
block and stops at the terminator that follows it. -/
theorem findTerm_lineSafe (g3 y : List Char) (hg : g3 = nlnl ∨ g3 = nlTypeTerm) :
    ∀ x : List Char, lineSafeB x = true → findTerm (x ++ (g3 ++ y)) = some (x, g3, y) := by
  intro x
  induction x with
  | nil =>
    intro _
    rw [List.nil_append]
    rcases hg with h | h <;> subst h
    · exact findTerm_nlnl y
    · exact findTerm_nlType y
  | cons c tl ih =>
    intro hx
    simp only [lineSafeB, Bool.and_eq_true, Bool.or_eq_true, decide_eq_true_eq] at hx
    obtain ⟨hc, htl⟩ := hx
    rw [List.cons_append, findTerm]
    have h1 : nlnl.isPrefixOf (c :: (tl ++ (g3 ++ y))) = false := by
      rcases hc with hc | hc
      · have hb : ('\n' == c) = false := beq_eq_false_iff_ne.mpr (fun h => hc h.symm)
        simp [nlnl, List.isPrefixOf, hb]
      · have htl3 : tl = ' ' :: ' ' :: ' ' :: tl.drop 3 := by
          conv_lhs => rw [← List.take_append_drop 3 tl]
          rw [hc]
          rfl
        rw [htl3]
        simp [nlnl, List.isPrefixOf, (by decide : (('\n' : Char) == ' ') = false)]
    have h2 : nlTypeTerm.isPrefixOf (c :: (tl ++ (g3 ++ y))) = false := by
      rcases hc with hc | hc
      · have hb : ('\n' == c) = false := beq_eq_false_iff_ne.mpr (fun h => hc h.symm)
        simp [nlTypeTerm, List.isPrefixOf, hb]
      · have htl3 : tl = ' ' :: ' ' :: ' ' :: tl.drop 3 := by
          conv_lhs => rw [← List.take_append_drop 3 tl]
          rw [hc]
          rfl
        rw [htl3]
        simp [nlTypeTerm, List.isPrefixOf, (by decide : (('-' : Char) == ' ') = false)]
    rw [if_neg (by simp [h1]), if_neg (by simp [h2]), ih htl]

/-- Inversion for the greedy-`\s*` backtracking loop: a success names an
offset `k` below the bound whose character is the matched `\n`. -/
theorem tryKs_sound (u : List Char) :
    ∀ n g1t g2 g3 rest, tryKs u n = some (g1t, g2, g3, rest) →
      ∃ k, k < n ∧ u[k]? = some '\n' ∧ g1t = u.take (k + 1) ∧
        findTerm (u.drop (k + 1)) = some (g2, g3, rest) := by
  intro n
  induction n with
  | zero => intro g1t g2 g3 rest h; simp [tryKs] at h
  | succ n ih =>
    intro g1t g2 g3 rest h
    rw [tryKs] at h
    by_cases h1 : u[n]? = some '\n'
    · rw [if_pos h1] at h
      rcases hft : findTerm (u.drop (n + 1)) with _ | ⟨a, b, r⟩
      · rw [hft] at h
        obtain ⟨k, hk, hrest⟩ := ih g1t g2 g3 rest h
        exact ⟨k, Nat.lt_succ_of_lt hk, hrest⟩
      · rw [hft] at h
        simp only [Option.some_inj, Prod.mk.injEq] at h
        obtain ⟨h2, h3, h4, h5⟩ := h
        subst h2 h3 h4 h5
        exact ⟨n, Nat.lt_succ_self n, h1, rfl, hft⟩
    · rw [if_neg h1] at h
      obtain ⟨k, hk, hrest⟩ := ih g1t g2 g3 rest h
      exact ⟨k, Nat.lt_succ_of_lt hk, hrest⟩

/-- A viable offset below the bound makes the backtracking loop succeed. -/
theorem tryKs_isSome (u : List Char) :
    ∀ n k, k < n → u[k]? = some '\n' → findTerm (u.drop (k + 1)) ≠ none →
      tryKs u n ≠ none := by
  intro n
  induction n with
  | zero => intro k hk; omega
  | succ n ih =>
    intro k hk hnl hft
    rw [tryKs]
    by_cases h1 : u[n]? = some '\n'
    · rw [if_pos h1]
      rcases hft2 : findTerm (u.drop (n + 1)) with _ | x
      · rcases Nat.lt_succ_iff_lt_or_eq.mp hk with hk' | hk'
        · exact ih k hk' hnl hft
        · subst hk'; exact absurd hft2 hft
      · simp
    · rw [if_neg h1]
      have hk' : k < n := by
        rcases Nat.lt_succ_iff_lt_or_eq.mp hk with h | h
        · exact h
        · subst h; exact absurd hnl h1
      exact ih k hk' hnl hft

/-- The backtracking loop skips a stretch of offsets that hold no `\n`. -/
theorem tryKs_skip (u : List Char) :
    ∀ n m, m ≤ n → (∀ k, m ≤ k → k < n → u[k]? ≠ some '\n') → tryKs u n = tryKs u m := by
  intro n
  induction n with
  | zero =>
    intro m hm _
    have : m = 0 := by omega
    subst this
    rfl
  | succ n ih =>
    intro m hm hno
    rcases Nat.eq_or_lt_of_le hm with h | h
    · rw [h]
    · have hmn : m ≤ n := by omega
      rw [tryKs, if_neg (hno n hmn (Nat.lt_succ_self n))]
      exact ih m hmn (fun k hk1 hk2 => hno k hk1 (Nat.lt_succ_of_lt hk2))

/-- Characters inside the whitespace run are whitespace. -/
theorem ws_of_lt_wsRunLen :
    ∀ (u : List Char) (k : Nat), k < wsRunLen u → ∀ c, u[k]? = some c → isWs c = true := by
  intro u
  induction u with
  | nil => intro k hk; simp [wsRunLen, List.takeWhile] at hk
  | cons a tl ih =>
    intro k hk c hc
    rw [wsRunLen, List.takeWhile_cons] at hk
    by_cases ha : isWs a = true
    · rw [if_pos ha] at hk
      cases k with
      | zero =>
        simp only [List.getElem?_cons_zero, Option.some_inj] at hc
        subst hc
        exact ha
      | succ k =>
        simp only [List.length_cons, Nat.succ_lt_succ_iff] at hk
        exact ih k hk c (by simpa using hc)
    · rw [if_neg ha] at hk
      simp at hk

/-- A stretch of leading whitespace bounds the run length from below. -/
theorem le_wsRunLen :
    ∀ (u : List Char) (m : Nat),
      (∀ j, j < m → ∃ c, u[j]? = some c ∧ isWs c = true) → m ≤ wsRunLen u := by
  intro u
  induction u with
  | nil =>
    intro m hm
    cases m with
    | zero => exact Nat.zero_le _
    | succ m =>
      obtain ⟨c, hc, _⟩ := hm 0 (Nat.succ_pos m)
      simp at hc
  | cons a tl ih =>
    intro m hm
    cases m with
    | zero => exact Nat.zero_le _
    | succ m =>
      obtain ⟨c, hc, hw⟩ := hm 0 (Nat.succ_pos m)
      simp only [List.getElem?_cons_zero, Option.some_inj] at hc
      subst hc
      rw [wsRunLen, List.takeWhile_cons, if_pos hw]
      simp only [List.length_cons, Nat.succ_le_succ_iff]
      exact ih m (fun j hj => by
        obtain ⟨c', hc', hw'⟩ := hm (j + 1) (by omega)
        exact ⟨c', by simpa using hc', hw'⟩)

/-- Inversion of `matchTail`. -/
theorem matchTail_sound {u g1t g2 g3 rest : List Char}
    (h : matchTail u = some (g1t, g2, g3, rest)) :
    ∃ k, k < wsRunLen u ∧ u[k]? = some '\n' ∧ g1t = u.take (k + 1) ∧
      findTerm (u.drop (k + 1)) = some (g2, g3, rest) :=
  tryKs_sound u (wsRunLen u) g1t g2 g3 rest h

/-- A successful `matchTail` decomposes its input; the `\s*\n` part is a
whitespace run ending in the matched newline, and the terminator is one of
the two alternatives. -/
theorem matchTail_decomp {u g1t g2 g3 rest : List Char}
    (h : matchTail u = some (g1t, g2, g3, rest)) :
    u = g1t ++ (g2 ++ (g3 ++ rest)) ∧ (g3 = nlnl ∨ g3 = nlTypeTerm) ∧
    ∃ w, g1t = w ++ ['\n'] ∧ (∀ c ∈ w, isWs c = true) := by
  obtain ⟨k, hk, hnl, hg1, hft⟩ := matchTail_sound h
  obtain ⟨hdec, hterm⟩ := findTerm_sound hft
  refine ⟨?_, hterm, u.take k, ?_, ?_⟩
  · rw [hg1]
    conv_lhs => rw [← List.take_append_drop (k + 1) u]
    rw [hdec]
  · rw [hg1, List.take_succ, hnl]
    rfl
  · have htw : u.takeWhile isWs = u.take (wsRunLen u) := by
      have := List.prefix_iff_eq_take.mp (List.takeWhile_prefix (l := u) isWs)
      simpa [wsRunLen] using this
    have heq : u.take k = (u.takeWhile isWs).take k := by
      rw [htw, List.take_take, min_eq_left (le_of_lt hk)]
    intro c hc
    rw [heq] at hc
    exact List.mem_takeWhile_imp (List.take_subset _ _ hc)

/-- Inversion of `tryMatch`. -/
theorem tryMatch_sound {s g1 g2 g3 rest : List Char}
    (h : tryMatch s = some (g1, g2, g3, rest)) :
    optsMarker.isPrefixOf s = true ∧
    ∃ g1t, g1 = optsMarker ++ g1t ∧ matchTail (s.drop 8) = some (g1t, g2, g3, rest) := by
  unfold tryMatch at h
  by_cases hp : optsMarker.isPrefixOf s = true
  · rw [if_pos hp] at h
    rcases hmt : matchTail (s.drop 8) with _ | ⟨a, b, c, d⟩
    · rw [hmt] at h; exact absurd h (by simp)
    · rw [hmt] at h
      simp only [Option.some_inj, Prod.mk.injEq] at h
      obtain ⟨h1, h2, h3, h4⟩ := h
      exact ⟨hp, a, h1.symm, by subst h2 h3 h4; rfl⟩
  · rw [if_neg hp] at h; exact absurd h (by simp)

/-- Introduction for `tryMatch`. -/
theorem tryMatch_of_matchTail {s g1t g2 g3 rest : List Char}
    (hp : optsMarker.isPrefixOf s = true)
    (hmt : matchTail (s.drop 8) = some (g1t, g2, g3, rest)) :
    tryMatch s = some (optsMarker ++ g1t, g2, g3, rest) := by
  unfold tryMatch
  rw [if_pos hp, hmt]

/-- Inversion of `findSplit`: the decomposition of the text, failure of the
pattern at every earlier offset, and the successful match at the split. -/
theorem findSplit_sound : ∀ {t : List Char} {m : OptsMatch}, findSplit t = some m →
    t = m.pre ++ (m.g1 ++ (m.g2 ++ (m.g3 ++ m.post))) ∧
    (∀ j, j < m.pre.length → tryMatch (t.drop j) = none) ∧
    tryMatch (m.g1 ++ (m.g2 ++ (m.g3 ++ m.post))) = some (m.g1, m.g2, m.g3, m.post) := by
  intro t
  induction t with
  | nil => intro m h; simp [findSplit] at h
  | cons c tl ih =>
    intro m h
    rw [findSplit] at h
    rcases htm : tryMatch (c :: tl) with _ | ⟨g1, g2, g3, rest⟩
    · rw [htm] at h
      simp only [Option.map_eq_some'] at h
      obtain ⟨m', hm', hfm⟩ := h
      subst hfm
      obtain ⟨hdec, hfail, hmatch⟩ := ih hm'
      refine ⟨by simp [hdec], ?_, hmatch⟩
      intro j hj
      cases j with
      | zero => simpa using htm
      | succ j =>
        have := hfail j (by simpa using hj)
        simpa using this
    · rw [htm] at h
      simp only [Option.some_inj] at h
      subst h
      obtain ⟨hp, g1t, hg1, hmt⟩ := tryMatch_sound htm
      obtain ⟨hdec, _, _⟩ := matchTail_decomp hmt
      have hsplit : c :: tl = optsMarker ++ (c :: tl).drop 8 := by
        have hpre := List.prefix_iff_eq_take.mp (by simpa using hp)
        conv_lhs => rw [← List.take_append_drop 8 (c :: tl)]
        congr 1
        simpa [optsMarker] using hpre.symm
      have hflt : g1 ++ (g2 ++ (g3 ++ rest)) = c :: tl := by
        rw [hsplit, hdec, hg1]
        simp [List.append_assoc]
      refine ⟨by rw [← hflt]; rfl, by intro j hj; simp at hj, ?_⟩
      rw [hflt]
      exact htm

/-- `findSplit` walks over a stretch of failing offsets. -/
theorem findSplit_append_fail : ∀ (a b : List Char),
    (∀ j, j < a.length → tryMatch (a.drop j ++ b) = none) →
    findSplit (a ++ b) = (findSplit b).map
      (fun m => ⟨a ++ m.pre, m.g1, m.g2, m.g3, m.post⟩) := by
  intro a
  induction a with
  | nil =>
    intro b _
    simp only [List.nil_append]
    cases findSplit b <;> rfl
  | cons c a' ih =>
    intro b hfail
    rw [List.cons_append, findSplit]
    have h0 : tryMatch (c :: (a' ++ b)) = none := by
      have := hfail 0 (by simp)
      simpa using this
    rw [h0]
    rw [ih b (fun j hj => by
      have := hfail (j + 1) (by simpa using Nat.succ_lt_succ hj)
      simpa using this)]
    cases findSplit b <;> rfl

/-- Unfolding: a literal head character passes through. -/
theorem getSubst_cons_ne (pre post g1 g2 g3 : List Char) {c : Char} (c2 : Char)
    (r : List Char) (h : c ≠ '$') :
    getSubst pre post g1 g2 g3 (c :: c2 :: r) = c :: getSubst pre post g1 g2 g3 (c2 :: r) := by
  rw [getSubst.eq_def]
  simp only []
  rw [if_neg h]

/-- Unfolding: `$$` is a literal dollar. -/
theorem getSubst_dd (pre post g1 g2 g3 : List Char) (r : List Char) :
    getSubst pre post g1 g2 g3 ('$' :: '$' :: r) = '$' :: getSubst pre post g1 g2 g3 r := by
  rw [getSubst.eq_def]
  simp

/-- Unfolding: `$&` inserts the whole match. -/
theorem getSubst_amp (pre post g1 g2 g3 : List Char) (r : List Char) :
    getSubst pre post g1 g2 g3 ('$' :: '&' :: r) =
      (g1 ++ g2 ++ g3) ++ getSubst pre post g1 g2 g3 r := by
  rw [getSubst.eq_def]
  simp [bqCh, sqCh]

/-- Unfolding: a backtick dollar token inserts the text before the match. -/
theorem getSubst_bq (pre post g1 g2 g3 : List Char) (r : List Char) :
    getSubst pre post g1 g2 g3 ('$' :: bqCh :: r) = pre ++ getSubst pre post g1 g2 g3 r := by
  rw [getSubst.eq_def]
  simp [bqCh, sqCh]

/-- Unfolding: a quote dollar token inserts the text after the match. -/
theorem getSubst_sq (pre post g1 g2 g3 : List Char) (r : List Char) :
    getSubst pre post g1 g2 g3 ('$' :: sqCh :: r) = post ++ getSubst pre post g1 g2 g3 r := by
  rw [getSubst.eq_def]
  simp [bqCh, sqCh]

/-- Unfolding: the capture-reference path, two-digit reference valid. -/
theorem getSubst_two (pre post g1 g2 g3 : List Char) {c2 : Char} (d : Char) (r2 : List Char)
    (h1 : c2 ≠ '$') (h2 : c2 ≠ '&') (h3 : c2 ≠ bqCh) (h4 : c2 ≠ sqCh) {n : Nat}
    (htd : twoDigitGroup c2 d = some n) :
    getSubst pre post g1 g2 g3 ('$' :: c2 :: d :: r2) =
      groupVal g1 g2 g3 n ++ getSubst pre post g1 g2 g3 r2 := by
  rw [getSubst.eq_def]
  simp [h1, h2, h3, h4, htd]

/-- Unfolding: the capture-reference path, falling back to one digit. -/
theorem getSubst_one (pre post g1 g2 g3 : List Char) {c2 : Char} (d : Char) (r2 : List Char)
    (h1 : c2 ≠ '$') (h2 : c2 ≠ '&') (h3 : c2 ≠ bqCh) (h4 : c2 ≠ sqCh)
    (htd : twoDigitGroup c2 d = none) {n : Nat} (hod : oneDigitGroup c2 = some n) :
    getSubst pre post g1 g2 g3 ('$' :: c2 :: d :: r2) =
      groupVal g1 g2 g3 n ++ getSubst pre post g1 g2 g3 (d :: r2) := by
  rw [getSubst.eq_def]
  simp [h1, h2, h3, h4, htd, hod]

/-- Unfolding: the capture-reference path, no valid reference. -/
theorem getSubst_lit (pre post g1 g2 g3 : List Char) {c2 : Char} (d : Char) (r2 : List Char)
    (h1 : c2 ≠ '$') (h2 : c2 ≠ '&') (h3 : c2 ≠ bqCh) (h4 : c2 ≠ sqCh)
    (htd : twoDigitGroup c2 d = none) (hod : oneDigitGroup c2 = none) :
    getSubst pre post g1 g2 g3 ('$' :: c2 :: d :: r2) =
      '$' :: c2 :: getSubst pre post g1 g2 g3 (d :: r2) := by
  rw [getSubst.eq_def]
  simp [h1, h2, h3, h4, htd, hod]

/-- `$3` alone substitutes to group 3. -/
theorem getSubst_dollar3 (pre post g1 g2 g3 : List Char) :
    getSubst pre post g1 g2 g3 ['$', '3'] = g3 := by
  rfl

/-- A `$`-free chunk of the replacement template passes through literally. -/
theorem getSubst_append_clean (pre post g1 g2 g3 : List Char) :
    ∀ (b rest : List Char), (∀ c ∈ b, c ≠ '$') → rest ≠ [] →
      getSubst pre post g1 g2 g3 (b ++ rest) = b ++ getSubst pre post g1 g2 g3 rest := by
  intro b
  induction b with
  | nil => intro rest _ _; simp
  | cons c b' ih =>
    intro rest hb hrest
    have hc : c ≠ '$' := hb c (by simp)
    rw [List.cons_append]
    rcases hbr : b' ++ rest with _ | ⟨c2, r⟩
    · exact absurd (List.append_eq_nil.mp hbr).2 hrest
    · rw [getSubst_cons_ne pre post g1 g2 g3 c2 r hc, ← hbr,
        ih rest (fun x hx => hb x (by simp [hx])) hrest]
      rfl

/-- `$1` at the head of the replacement template always substitutes group 1:
a following digit would form a two-digit reference `1d ≥ 10`, beyond the
three capture groups, so the engine falls back to the one-digit reference. -/
theorem getSubst_head_one (pre post g1 g2 g3 : List Char) :
    ∀ A : List Char, getSubst pre post g1 g2 g3 ('$' :: '1' :: (A ++ ['$', '3'])) =
      g1 ++ getSubst pre post g1 g2 g3 (A ++ ['$', '3']) := by
  have htwo : ∀ d : Char, twoDigitGroup '1' d = none := by
    intro d
    unfold twoDigitGroup
    by_cases h : ('1'.isDigit && d.isDigit) = true
    · rw [if_pos h]
      simp only []
      rw [if_neg]
      simp only [Bool.and_eq_true, decide_eq_true_eq, not_and]
      intro _
      have h1 : '1'.toNat = 49 := by decide
      omega
    · rw [if_neg h]
  intro A
  rcases A with _ | ⟨a, A'⟩
  · rfl
  · have hod : oneDigitGroup '1' = some 1 := by decide
    rw [List.cons_append,
      getSubst_one pre post g1 g2 g3 a (A' ++ ['$', '3'])
        (by decide) (by decide) (by decide) (by decide) (htwo a) hod]
    rfl

/-- A `$`-free rendered block between `$1` and `$3` substitutes to exactly
group 1, the block, and group 3. -/
theorem getSubst_clean (pre post g1 g2 g3 A : List Char) (hA : ∀ c ∈ A, c ≠ '$') :
    getSubst pre post g1 g2 g3 ('$' :: '1' :: (A ++ ['$', '3'])) = g1 ++ (A ++ g3) := by
  rw [getSubst_head_one, getSubst_append_clean pre post g1 g2 g3 A ['$', '3'] hA (by simp),
    getSubst_dollar3]

/-- No `$`-token of the replacement template can swallow the closing `$3`
as long as the block does not end in `$`: the substitution of
`A ++ "$3"` always ends in group 3, whatever `A` contains. -/
theorem getSubst_tail_ex (pre post g1 g2 g3 : List Char) :
    ∀ (n : Nat) (A : List Char), A.length ≤ n → A.getLast? ≠ some '$' →
      ∃ M, getSubst pre post g1 g2 g3 (A ++ ['$', '3']) = M ++ g3 := by
  intro n
  induction n with
  | zero =>
    intro A hlen _
    have hA : A = [] := List.length_eq_zero.mp (by omega)
    subst hA
    exact ⟨[], by simpa using getSubst_dollar3 pre post g1 g2 g3⟩
  | succ n ih =>
    intro A hlen hlast
    rcases A with _ | ⟨c, A'⟩
    · exact ⟨[], by simpa using getSubst_dollar3 pre post g1 g2 g3⟩
    by_cases hc : c = '$'
    case neg =>
      have hlast' : A'.getLast? ≠ some '$' := by
        rcases A' with _ | ⟨x, xs⟩
        · simp
        · simpa using hlast
      obtain ⟨M, hM⟩ := ih A' (by simpa using Nat.le_of_succ_le_succ hlen) hlast'
      rcases hA2 : A' ++ ['$', '3'] with _ | ⟨c2, r⟩
      · simp at hA2
      refine ⟨c :: M, ?_⟩
      rw [List.cons_append]
      rw [hA2] at hM ⊢
      rw [getSubst_cons_ne pre post g1 g2 g3 c2 r hc, hM]
      rfl
    case pos =>
      subst hc
      rcases A' with _ | ⟨c2, A''⟩
      · simp at hlast
      have hlast'' : A''.getLast? ≠ some '$' := by
        rcases A'' with _ | ⟨x, xs⟩
        · simp
        · simpa using hlast
      have hlen'' : A''.length ≤ n := by
        simp only [List.length_cons] at hlen
        omega
      obtain ⟨M, hM⟩ := ih A'' hlen'' hlast''
      rw [List.cons_append, List.cons_append]
      by_cases h2 : c2 = '$'
      · subst h2
        exact ⟨'$' :: M, by rw [getSubst_dd, hM]; rfl⟩
      by_cases h3 : c2 = '&'
      · subst h3
        exact ⟨(g1 ++ g2 ++ g3) ++ M, by rw [getSubst_amp, hM]; simp [List.append_assoc]⟩
      by_cases h4 : c2 = bqCh
      · subst h4
        exact ⟨pre ++ M, by rw [getSubst_bq, hM]; simp [List.append_assoc]⟩
      by_cases h5 : c2 = sqCh
      · subst h5
        exact ⟨post ++ M, by rw [getSubst_sq, hM]; simp [List.append_assoc]⟩
      rcases hA3 : A'' ++ ['$', '3'] with _ | ⟨d, r2⟩
      · simp at hA3
      rcases htd : twoDigitGroup c2 d with _ | k
      · rcases hod : oneDigitGroup c2 with _ | k
        · refine ⟨'$' :: c2 :: M, ?_⟩
          rw [getSubst_lit pre post g1 g2 g3 d r2 h2 h3 h4 h5 htd hod, ← hA3, hM]
          rfl
        · refine ⟨groupVal g1 g2 g3 k ++ M, ?_⟩
          rw [getSubst_one pre post g1 g2 g3 d r2 h2 h3 h4 h5 htd hod, ← hA3, hM,
            List.append_assoc]
      · rcases A'' with _ | ⟨e, A3⟩
        · exfalso
          simp only [List.nil_append, List.cons.injEq] at hA3
          have hd : d = '$' := hA3.1.symm
          subst hd
          have : twoDigitGroup c2 '$' = none := by
            unfold twoDigitGroup
            rw [if_neg]
            simp only [Bool.and_eq_true, not_and]
            intro _
            decide
          rw [this] at htd
          exact absurd htd (by simp)
        · simp only [List.cons_append, List.cons.injEq] at hA3
          obtain ⟨hd, hr2⟩ := hA3
          subst hd
          have hlast3 : A3.getLast? ≠ some '$' := by
            rcases A3 with _ | ⟨x, xs⟩
            · simp
            · simpa using hlast
          have hlen3 : A3.length ≤ n := by
            simp only [List.length_cons] at hlen
            omega
          obtain ⟨M3, hM3⟩ := ih A3 hlen3 hlast3
          refine ⟨groupVal g1 g2 g3 k ++ M3, ?_⟩
          rw [getSubst_two pre post g1 g2 g3 e r2 h2 h3 h4 h5 htd, ← hr2, hM3,
            List.append_assoc]

/-- The rendered block always ends with the closing quote of `value: 'all'`. -/
theorem allOptions_getLast (ms : List Monitor) : (allOptions ms).getLast? = some sqCh := by
  unfold allOptions
  rw [List.getLast?_append]
  have h : ('\n' :: allMonitorsRecord).getLast? = some sqCh := by decide
  rw [h]
  rfl

/-- A newline-free text is trivially line-safe. -/
theorem lineSafeB_of_noNl : ∀ l : List Char, '\n' ∉ l → lineSafeB l = true := by
  intro l
  induction l with
  | nil => intro _; rfl
  | cons c tl ih =>
    intro h
    simp only [lineSafeB, Bool.and_eq_true, Bool.or_eq_true, decide_eq_true_eq]
    exact ⟨Or.inl (fun hc => h (by simp [hc])), ih (fun hm => h (by simp [hm]))⟩

/-- Line safety is preserved by concatenation: each newline of either part
keeps its three following spaces inside that part. -/
theorem lineSafeB_append : ∀ (u v : List Char), lineSafeB u = true → lineSafeB v = true →
    lineSafeB (u ++ v) = true := by
  intro u
  induction u with
  | nil => intro v _ hv; simpa using hv
  | cons c u' ih =>
    intro v hu hv
    simp only [lineSafeB, Bool.and_eq_true, Bool.or_eq_true, decide_eq_true_eq] at hu
    obtain ⟨hc, hu'⟩ := hu
    rw [List.cons_append]
    simp only [lineSafeB, Bool.and_eq_true, Bool.or_eq_true, decide_eq_true_eq]
    refine ⟨?_, ih v hu' hv⟩
    rcases hc with hc | hc
    · exact Or.inl hc
    · right
      have hlen : 3 ≤ u'.length := by
        have := congrArg List.length hc
        simp [List.length_take] at this
        omega
      rw [List.take_append_of_le_length hlen, hc]

/-- A newline-free head chunk keeps the concatenation line-safe. -/
theorem lineSafeB_append_left (u v : List Char) (hu : '\n' ∉ u) (hv : lineSafeB v = true) :
    lineSafeB (u ++ v) = true :=
  lineSafeB_append u v (lineSafeB_of_noNl u hu) hv

/-- One rendered record is line-safe when its id and name hold no newline:
its only newline is the fixed line break, followed by ten spaces. -/
theorem renderOption_lineSafe (m : Monitor) (h1 : '\n' ∉ m.id) (h2 : '\n' ∉ m.name) :
    lineSafeB (renderOption m) = true := by
  unfold renderOption
  simp only [List.append_assoc]
  refine lineSafeB_append_left _ _ (by decide) ?_
  refine lineSafeB_append_left _ _ (by simp [sqCh]) ?_
  refine lineSafeB_append_left _ _ h1 ?_
  refine lineSafeB_append_left _ _ (by decide) ?_
  refine lineSafeB_append_left _ _ h2 ?_
  refine lineSafeB_append_left _ _ (by simp [sqCh]) ?_
  refine lineSafeB_append _ _ (by decide) ?_
  refine lineSafeB_append_left _ _ (by simp [sqCh]) ?_
  refine lineSafeB_append_left _ _ h1 ?_
  exact lineSafeB_of_noNl _ (by simp [sqCh])

/-- The first three characters of a rendered record are spaces. -/
theorem renderOption_take3 (m : Monitor) :
    (renderOption m).take 3 = [' ', ' ', ' '] := by
  unfold renderOption
  simp only [List.append_assoc]
  rw [List.take_append_of_le_length (by decide)]
  decide

/-- The first nine characters of a rendered record are eight spaces and a
dash: the fixed indentation of the label line. -/
theorem renderOption_take9 (m : Monitor) :
    (renderOption m).take 9 = ("        -".data) := by
  unfold renderOption
  simp only [List.append_assoc]
  rw [List.take_append_of_le_length (by decide)]
  decide

/-- A nonempty collection's joined option lines start with a record. -/
theorem monitorOptions_cons_ex (m : Monitor) (tl : List Monitor) :
    ∃ X, monitorOptions (m :: tl) = renderOption m ++ X ∧
      (X = [] ∨ ∃ Y, X = '\n' :: Y) := by
  cases tl with
  | nil => exact ⟨[], by simp [monitorOptions, joinNl], Or.inl rfl⟩
  | cons m2 tl2 =>
    refine ⟨'\n' :: joinNl ((m2 :: tl2).map renderOption), ?_, Or.inr ⟨_, rfl⟩⟩
    simp [monitorOptions, joinNl]

/-- The joined option lines of a clean collection are line-safe. -/
theorem monitorOptions_lineSafe : ∀ ms : List Monitor,
    (∀ m ∈ ms, '\n' ∉ m.id ∧ '\n' ∉ m.name) → lineSafeB (monitorOptions ms) = true := by
  intro ms
  induction ms with
  | nil => intro _; rfl
  | cons m tl ih =>
    intro h
    have hm := h m (by simp)
    cases tl with
    | nil =>
      show lineSafeB (joinNl [renderOption m]) = true
      simp only [joinNl]
      exact renderOption_lineSafe m hm.1 hm.2
    | cons m2 tl2 =>
      show lineSafeB (renderOption m ++ '\n' :: joinNl ((m2 :: tl2).map renderOption)) = true
      refine lineSafeB_append _ _ (renderOption_lineSafe m hm.1 hm.2) ?_
      have htl : lineSafeB (monitorOptions (m2 :: tl2)) = true :=
        ih (fun x hx => h x (by simp [hx]))
      obtain ⟨X, hX, _⟩ := monitorOptions_cons_ex m2 tl2
      simp only [lineSafeB, Bool.and_eq_true, Bool.or_eq_true, decide_eq_true_eq]
      refine ⟨Or.inr ?_, ?_⟩
      · show (joinNl ((m2 :: tl2).map renderOption)).take 3 = [' ', ' ', ' ']
        have : joinNl ((m2 :: tl2).map renderOption) = renderOption m2 ++ X := hX
        rw [this, List.take_append_of_le_length ?hlen, renderOption_take3]
        case hlen =>
          have := congrArg List.length (renderOption_take3 m2)
          simp [List.length_take] at this
          omega
      · exact htl

/-- The whole rendered block of a clean collection is line-safe. -/
theorem allOptions_lineSafe (ms : List Monitor)
    (h : ∀ m ∈ ms, '\n' ∉ m.id ∧ '\n' ∉ m.name) : lineSafeB (allOptions ms) = true := by
  unfold allOptions
  refine lineSafeB_append _ _ (monitorOptions_lineSafe ms h) ?_
  decide

/-- The rendered block of a clean collection holds no dollar sign. -/
theorem allOptions_no_dollar (ms : List Monitor)
    (h : ∀ m ∈ ms, '$' ∉ m.id ∧ '$' ∉ m.name) : ∀ c ∈ allOptions ms, c ≠ '$' := by
  have hrec : ∀ m : Monitor, '$' ∉ m.id → '$' ∉ m.name → '$' ∉ renderOption m := by
    intro m h1 h2 hc
    unfold renderOption at hc
    simp only [List.mem_append, List.mem_cons, List.mem_singleton] at hc
    rcases hc with ((((((((hc | hc) | hc) | hc) | hc) | hc) | hc) | hc) | hc) | hc
    · revert hc; decide
    · revert hc; simp [sqCh]
    · exact h1 hc
    · revert hc; decide
    · exact h2 hc
    · revert hc; simp [sqCh]
    · revert hc; decide
    · revert hc; simp [sqCh]
    · exact h1 hc
    · revert hc; simp [sqCh]
  have hjoin : ∀ ms : List Monitor, (∀ m ∈ ms, '$' ∉ m.id ∧ '$' ∉ m.name) →
      '$' ∉ monitorOptions ms := by
    intro ms
    induction ms with
    | nil => intro _ hc; simp [monitorOptions, joinNl] at hc
    | cons m tl ih =>
      intro hcl hc
      have hm := hcl m (by simp)
      cases tl with
      | nil =>
        exact hrec m hm.1 hm.2 (by simpa [monitorOptions, joinNl] using hc)
      | cons m2 tl2 =>
        have hc' : '$' ∈ renderOption m ++ '\n' :: monitorOptions (m2 :: tl2) := hc
        rcases List.mem_append.mp hc' with h | h
        · exact hrec m hm.1 hm.2 h
        · rcases List.mem_cons.mp h with h | h
          · exact absurd h.symm (by decide)
          · exact ih (fun x hx => hcl x (by simp [hx])) h
  intro c hc hceq
  subst hceq
  unfold allOptions at hc
  rcases List.mem_append.mp hc with hmem | hmem
  · exact hjoin ms h hmem
  · rcases List.mem_cons.mp hmem with hmem | hmem
    · exact absurd hmem.symm (by decide)
    · revert hmem
      decide

/-- A nonempty collection's rendered block starts with the eight spaces and
dash of the first record's label line. -/
theorem allOptions_take9 (m : Monitor) (tl : List Monitor) :
    (allOptions (m :: tl)).take 9 = ("        -".data) := by
  unfold allOptions
  obtain ⟨X, hX, _⟩ := monitorOptions_cons_ex m tl
  rw [hX, List.append_assoc, List.take_append_of_le_length ?hlen, renderOption_take9]
  case hlen =>
    have := congrArg List.length (renderOption_take9 m)
    simp [List.length_take] at this
    omega

/-- `isPrefixOf` only inspects the first `p.length` characters. -/
theorem isPrefixOf_eq_of_take {p x y : List Char}
    (h : x.take p.length = y.take p.length) : p.isPrefixOf x = p.isPrefixOf y := by
  cases hx : p.isPrefixOf x <;> cases hy : p.isPrefixOf y <;> try rfl
  · exfalso
    have hy' : p <+: y := by simpa using hy
    have : p = y.take p.length := by
      have := List.prefix_iff_eq_take.mp hy'
      simpa using this
    have hx' : p <+: x := by
      rw [List.prefix_iff_eq_take, h]
      exact this
    rw [(by simpa using hx' : p.isPrefixOf x = true)] at hx
    exact Bool.false_ne_true hx.symm
  · exfalso
    have hx' : p <+: x := by simpa using hx
    have : p = x.take p.length := by
      have := List.prefix_iff_eq_take.mp hx'
      simpa using this
    have hy' : p <+: y := by
      rw [List.prefix_iff_eq_take, ← h]
      exact this
    rw [(by simpa using hy' : p.isPrefixOf y = true)] at hy
    exact Bool.false_ne_true hy.symm

/-- A successful `tryMatch` at the very head pins down `findSplit`. -/
theorem findSplit_head {b g1 g2 g3 rest : List Char}
    (h : tryMatch b = some (g1, g2, g3, rest)) :
    findSplit b = some ⟨[], g1, g2, g3, rest⟩ := by
  cases b with
  | nil =>
    exfalso
    have : tryMatch ([] : List Char) = none := by
      unfold tryMatch
      rw [if_neg (by decide)]
    rw [this] at h
    exact absurd h (by simp)
  | cons c tl => rw [findSplit, h]

/-- Transfer of a match failure between the original and the patched text:
if the tail pattern succeeds after the shared chunk followed by the
rendered block, it also succeeds after the shared chunk followed by the
original middle, because the chosen newline must lie inside the shared
chunk (the block starts with eight spaces and a dash) and the original
text still contains a terminator. -/
theorem matchTail_transfer (sc g2c A g3 post : List Char)
    (hA : A.take 9 = ("        -".data))
    (hg3 : g3 = nlnl ∨ g3 = nlTypeTerm)
    (h : matchTail (sc ++ (A ++ (g3 ++ post))) ≠ none) :
    matchTail (sc ++ (g2c ++ (g3 ++ post))) ≠ none := by
  have hAlen : 9 ≤ A.length := by
    have := congrArg List.length hA
    simp [List.length_take] at this
    omega
  rcases hmt : matchTail (sc ++ (A ++ (g3 ++ post))) with _ | ⟨g1t, g2x, g3x, restx⟩
  · exact absurd hmt h
  obtain ⟨k, hk, hnl, _, _⟩ := matchTail_sound hmt
  have hA8 : (sc ++ (A ++ (g3 ++ post)))[sc.length + 8]? = some '-' := by
    rw [List.getElem?_append_right (by omega)]
    have : sc.length + 8 - sc.length = 8 := by omega
    rw [this, List.getElem?_append_left (by omega)]
    rw [← List.getElem?_take_of_lt (show (8 : Nat) < 9 by omega), hA]
    rfl
  have hksc : k < sc.length := by
    by_contra hge
    push_neg at hge
    have hi : (sc ++ (A ++ (g3 ++ post)))[k]? = (A ++ (g3 ++ post))[k - sc.length]? :=
      List.getElem?_append_right hge
    set i := k - sc.length with hi_def
    rcases Nat.lt_or_ge i 8 with hlt | hge8
    · have : (A ++ (g3 ++ post))[i]? = some ' ' := by
        rw [List.getElem?_append_left (by omega)]
        rw [← List.getElem?_take_of_lt (show i < 9 by omega), hA]
        interval_cases i <;> rfl
      rw [hi, this] at hnl
      exact absurd hnl (by simp)
    · rcases Nat.eq_or_lt_of_le hge8 with heq | hgt
      · have : (A ++ (g3 ++ post))[i]? = some '-' := by
          rw [List.getElem?_append_left (by omega)]
          rw [← List.getElem?_take_of_lt (show i < 9 by omega), hA, ← heq]
          rfl
        rw [hi, this] at hnl
        exact absurd hnl (by simp)
      · have hlt2 : sc.length + 8 < wsRunLen (sc ++ (A ++ (g3 ++ post))) := by omega
        have := ws_of_lt_wsRunLen _ (sc.length + 8) hlt2 '-' hA8
        exact absurd this (by decide)
  have hnl' : (sc ++ (g2c ++ (g3 ++ post)))[k]? = some '\n' := by
    rw [List.getElem?_append_left hksc]
    rw [List.getElem?_append_left hksc] at hnl
    exact hnl
  have hwsk : k < wsRunLen (sc ++ (g2c ++ (g3 ++ post))) := by
    have hle : k + 1 ≤ wsRunLen (sc ++ (g2c ++ (g3 ++ post))) := by
      apply le_wsRunLen
      intro j hj
      have hj' : j < sc.length := by omega
      have hjw : j < wsRunLen (sc ++ (A ++ (g3 ++ post))) := by omega
      obtain ⟨c, hc⟩ : ∃ c, sc[j]? = some c := by
        rcases hx : sc[j]? with _ | c
        · rw [List.getElem?_eq_none_iff] at hx
          omega
        · exact ⟨c, rfl⟩
      refine ⟨c, ?_, ?_⟩
      · rw [List.getElem?_append_left hj']
        exact hc
      · refine ws_of_lt_wsRunLen _ j hjw c ?_
        rw [List.getElem?_append_left hj']
        exact hc
    omega
  have hft : findTerm ((sc ++ (g2c ++ (g3 ++ post))).drop (k + 1)) ≠ none := by
    rw [List.drop_append_of_le_length (by omega)]
    have : sc.drop (k + 1) ++ (g2c ++ (g3 ++ post)) =
        (sc.drop (k + 1) ++ g2c) ++ (g3 ++ post) := by
      simp [List.append_assoc]
    rw [this]
    exact findTerm_isSome_append _ g3 post hg3
  exact tryKs_isSome _ (wsRunLen (sc ++ (g2c ++ (g3 ++ post)))) k hwsk hnl' hft

/-- Reconstruction of the match on the patched text: after `options:` the
run is the original whitespace, its final newline is the largest viable
offset (the block opens with spaces and a dash), and the terminator search
walks the whole line-safe block to the preserved terminator. -/
theorem matchTail_reconstruct (w A g3 post : List Char)
    (hws : ∀ c ∈ w, isWs c = true)
    (hsafe : lineSafeB A = true)
    (h9 : A.take 9 = ("        -".data))
    (hg3 : g3 = nlnl ∨ g3 = nlTypeTerm) :
    matchTail ((w ++ ['\n']) ++ (A ++ (g3 ++ post))) = some (w ++ ['\n'], A, g3, post) := by
  set u := (w ++ ['\n']) ++ (A ++ (g3 ++ post)) with hu
  have hAlen : 9 ≤ A.length := by
    have := congrArg List.length h9
    simp [List.length_take] at this
    omega
  have hunl : u[w.length]? = some '\n' := by
    rw [hu, List.getElem?_append_left (by simp)]
    rw [List.getElem?_append_right (by omega)]
    simp
  have hA8 : u[w.length + 1 + 8]? = some '-' := by
    rw [hu, List.getElem?_append_right (by simp)]
    have hl : (w ++ ['\n']).length = w.length + 1 := by simp
    have : w.length + 1 + 8 - (w ++ ['\n']).length = 8 := by rw [hl]; omega
    rw [this, List.getElem?_append_left (by omega)]
    rw [← List.getElem?_take_of_lt (show (8 : Nat) < 9 by omega), h9]
    rfl
  have hspace : ∀ i, i < 8 → u[w.length + 1 + i]? = some ' ' := by
    intro i hi
    rw [hu, List.getElem?_append_right (by simp)]
    have hl : (w ++ ['\n']).length = w.length + 1 := by simp
    have : w.length + 1 + i - (w ++ ['\n']).length = i := by rw [hl]; omega
    rw [this, List.getElem?_append_left (by omega)]
    rw [← List.getElem?_take_of_lt (show i < 9 by omega), h9]
    interval_cases i <;> rfl
  have hwlow : w.length + 1 ≤ wsRunLen u := by
    apply le_wsRunLen
    intro j hj
    obtain ⟨c, hc⟩ : ∃ c, (w ++ ['\n'])[j]? = some c := by
      rcases hx : (w ++ ['\n'])[j]? with _ | c
      · rw [List.getElem?_eq_none_iff] at hx
        simp at hx
        omega
      · exact ⟨c, rfl⟩
    refine ⟨c, by rw [hu, List.getElem?_append_left (by simp; omega)]; exact hc, ?_⟩
    rcases Nat.lt_or_ge j w.length with hjw | hjw
    · refine hws c ?_
      rw [List.getElem?_append_left hjw] at hc
      exact List.getElem?_mem hc
    · have hj1 : j = w.length := by omega
      subst hj1
      rw [List.getElem?_append_right (by omega)] at hc
      simp at hc
      subst hc
      decide
  have hwhigh : wsRunLen u ≤ w.length + 9 := by
    by_contra hgt
    push_neg at hgt
    have := ws_of_lt_wsRunLen u (w.length + 1 + 8) (by omega) '-' hA8
    exact absurd this (by decide)
  unfold matchTail
  have hskip : tryKs u (wsRunLen u) = tryKs u (w.length + 1) := by
    apply tryKs_skip
    · exact hwlow
    · intro k hk1 hk2
      have hi : k - (w.length + 1) < 8 := by omega
      have := hspace (k - (w.length + 1)) hi
      have hk3 : w.length + 1 + (k - (w.length + 1)) = k := by omega
      rw [hk3] at this
      rw [this]
      simp
  rw [hskip, tryKs, hunl]
  rw [if_pos rfl]
  have hdrop : u.drop (w.length + 1) = A ++ (g3 ++ post) := by
    rw [hu]
    have hl : (w ++ ['\n']).length = w.length + 1 := by simp
    rw [← hl, List.drop_left]
  rw [hdrop, findTerm_lineSafe g3 post hg3 A hsafe]
  have htake : u.take (w.length + 1) = w ++ ['\n'] := by
    rw [hu]
    have hl : (w ++ ['\n']).length = w.length + 1 := by simp
    rw [← hl, List.take_left]
  rw [htake]

/-- The patched text for a dollar-free block, in decomposed form. -/
theorem updatedContent_eq_of_split (tmpl A : List Char) (m : OptsMatch)
    (hfs : findSplit tmpl = some m) (hA : ∀ c ∈ A, c ≠ '$') :
    updatedContent tmpl A = m.pre ++ (m.g1 ++ (A ++ (m.g3 ++ m.post))) := by
  unfold updatedContent replacementTemplate
  rw [hfs]
  simp only []
  rw [getSubst_clean m.pre m.post m.g1 m.g2 m.g3 A hA]
  simp [List.append_assoc]

/-- C6: when the options pattern matches, patching replaces only the
variable middle portion: the text outside the matched region is preserved
byte-for-byte, group 1 (holding the literal `options:` marker) and the
original terminator (blank line or `\n  - type:`) are kept verbatim, for
every monitor collection. -/
theorem patch_frame (tmpl : List Char) (ms : List Monitor) (m : OptsMatch)
    (h : findSplit tmpl = some m) :
    tmpl = m.pre ++ (m.g1 ++ (m.g2 ++ (m.g3 ++ m.post))) ∧
    optsMarker.isPrefixOf m.g1 = true ∧
    (m.g3 = nlnl ∨ m.g3 = nlTypeTerm) ∧
    ∃ M, updatedContent tmpl (allOptions ms) =
      m.pre ++ (m.g1 ++ (M ++ (m.g3 ++ m.post))) := by
  obtain ⟨hdec, hfail, hmatch⟩ := findSplit_sound h
  obtain ⟨hp, g1t, hg1, hmt⟩ := tryMatch_sound hmatch
  obtain ⟨_, hterm, _⟩ := matchTail_decomp hmt
  refine ⟨hdec, by rw [hg1]; simp, hterm, ?_⟩
  obtain ⟨M, hM⟩ := getSubst_tail_ex m.pre m.post m.g1 m.g2 m.g3
    (allOptions ms).length (allOptions ms) (le_refl _)
    (by rw [allOptions_getLast]; simp [sqCh])
  refine ⟨M, ?_⟩
  unfold updatedContent replacementTemplate
  rw [h]
  simp only []
  rw [getSubst_head_one, hM]
  simp [List.append_assoc]

set_option maxRecDepth 4000 in
/-- C6 witness: the demo template decomposes and is patched in place. -/
theorem patch_frame_witness :
    demoTmpl = ("name: Maintenance\n  - type: dropdown\n    attributes:\n      ".data) ++
      (("options:\n".data) ++ (("        - label: OLD\n          value: old".data) ++
        (nlnl ++ ("  - type: textarea\nend".data)))) ∧
    optsMarker.isPrefixOf ("options:\n".data) = true ∧
    (nlnl = nlnl ∨ nlnl = nlTypeTerm) ∧
    ∃ M, updatedContent demoTmpl (allOptions demoMonitors) =
      ("name: Maintenance\n  - type: dropdown\n    attributes:\n      ".data) ++
      (("options:\n".data) ++ (M ++ (nlnl ++ ("  - type: textarea\nend".data)))) :=
  patch_frame demoTmpl demoMonitors
    ⟨("name: Maintenance\n  - type: dropdown\n    attributes:\n      ".data),
     ("options:\n".data), ("        - label: OLD\n          value: old".data),
     nlnl, ("  - type: textarea\nend".data)⟩ (by decide)

set_option maxRecDepth 8000 in
/-- C9 counterexample: in a template where the pattern also matches at
position 11, inside the first match's middle, the patch destroys that
later occurrence: the text from position 11 onward is no longer present
in the output. -/
theorem second_occurrence_cex :
    findSplit demoTmplTwice =
      some ⟨[], ("options:\n".data), ("A\noptions:\nB".data), nlnl, ("rest".data)⟩ ∧
    (tryMatch (demoTmplTwice.drop 11)).isSome = true ∧
    demoTmplTwice.drop 11 = ("options:\nB\n\nrest".data) ∧
    ¬ ("options:\nB\n\nrest".data) <:+:
        updatedContent demoTmplTwice (allOptions demoMonitors) := by
  refine ⟨by decide, by decide, by decide, by decide⟩

/-- C9 amended: the non-global replace rewrites only the first match: the
text before it and every byte from its end onward is preserved (at the
shifted offset), so any pattern occurrence beginning at or after the end
of the first match is left byte-identical; an occurrence beginning inside
the first matched region may be rewritten away. -/
theorem first_match_only (tmpl : List Char) (ms : List Monitor) (m : OptsMatch)
    (h : findSplit tmpl = some m) :
    ∃ M, updatedContent tmpl (allOptions ms) =
        m.pre ++ (m.g1 ++ (M ++ (m.g3 ++ m.post))) ∧
      ∀ d : Nat, tmpl.drop ((m.pre ++ (m.g1 ++ (m.g2 ++ m.g3))).length + d) =
        (updatedContent tmpl (allOptions ms)).drop
          ((m.pre ++ (m.g1 ++ (M ++ m.g3))).length + d) := by
  obtain ⟨hdec, hfail, hmatch⟩ := findSplit_sound h
  obtain ⟨M, hM⟩ := getSubst_tail_ex m.pre m.post m.g1 m.g2 m.g3
    (allOptions ms).length (allOptions ms) (le_refl _)
    (by rw [allOptions_getLast]; simp [sqCh])
  have hup : updatedContent tmpl (allOptions ms) =
      m.pre ++ (m.g1 ++ (M ++ (m.g3 ++ m.post))) := by
    unfold updatedContent replacementTemplate
    rw [h]
    simp only []
    rw [getSubst_head_one, hM]
    simp [List.append_assoc]
  refine ⟨M, hup, ?_⟩
  intro d
  have h1 : tmpl = (m.pre ++ (m.g1 ++ (m.g2 ++ m.g3))) ++ m.post := by
    rw [hdec]
    simp [List.append_assoc]
  have h2 : updatedContent tmpl (allOptions ms) =
      (m.pre ++ (m.g1 ++ (M ++ m.g3))) ++ m.post := by
    rw [hup]
    simp [List.append_assoc]
  rw [h2, h1, List.drop_append, List.drop_append]

set_option maxRecDepth 8000 in
/-- C9 amended witness: the two-occurrence demo template. -/
theorem first_match_only_witness :
    ∃ M, updatedContent demoTmplTwice (allOptions demoMonitors) =
        [] ++ (("options:\n".data) ++ (M ++ (nlnl ++ ("rest".data)))) ∧
      ∀ d : Nat, demoTmplTwice.drop
          (([] ++ (("options:\n".data) ++ (("A\noptions:\nB".data) ++ nlnl))).length + d) =
        (updatedContent demoTmplTwice (allOptions demoMonitors)).drop
          (([] ++ (("options:\n".data) ++ (M ++ nlnl))).length + d) :=
  first_match_only demoTmplTwice demoMonitors
    ⟨[], ("options:\n".data), ("A\noptions:\nB".data), nlnl, ("rest".data)⟩ (by decide)

set_option maxRecDepth 8000 in
/-- C2 counterexample: the patch is NOT idempotent for every collection.
With an empty collection the block starts with a newline that is absorbed
into group 1 on the second run, accumulating one extra blank line; an id
containing a blank line plants a terminator inside the block; an id
containing `$2` is re-expanded by the substitution on every run. -/
theorem patch_not_idempotent_cex :
    updatedContent (updatedContent tmplTiny (allOptions [])) (allOptions []) ≠
      updatedContent tmplTiny (allOptions []) ∧
    updatedContent (updatedContent tmplTiny (allOptions [monitorNlId]))
        (allOptions [monitorNlId]) ≠
      updatedContent tmplTiny (allOptions [monitorNlId]) ∧
    updatedContent (updatedContent tmplTiny (allOptions [monitorDollarId]))
        (allOptions [monitorDollarId]) ≠
      updatedContent tmplTiny (allOptions [monitorDollarId]) := by
  refine ⟨by decide, by decide, by decide⟩

/-- C2 amended: for every template text and every nonempty monitor
collection whose ids and names contain no newline and no dollar sign,
patching is idempotent: the second application finds exactly the
previously rewritten region (same leftmost position, same group 1 and
terminator) and replaces its middle with the identical block. -/
theorem patch_idempotent (tmpl : List Char) (ms : List Monitor) (hne : ms ≠ [])
    (hclean : ∀ m ∈ ms, '\n' ∉ m.id ∧ '\n' ∉ m.name ∧ '$' ∉ m.id ∧ '$' ∉ m.name) :
    updatedContent (updatedContent tmpl (allOptions ms)) (allOptions ms) =
      updatedContent tmpl (allOptions ms) := by
  have hAnd : ∀ c ∈ allOptions ms, c ≠ '$' :=
    allOptions_no_dollar ms (fun m hm => ⟨(hclean m hm).2.2.1, (hclean m hm).2.2.2⟩)
  have hsafe : lineSafeB (allOptions ms) = true :=
    allOptions_lineSafe ms (fun m hm => ⟨(hclean m hm).1, (hclean m hm).2.1⟩)
  have h9 : (allOptions ms).take 9 = ("        -".data) := by
    rcases ms with _ | ⟨m0, tl⟩
    · exact absurd rfl hne
    · exact allOptions_take9 m0 tl
  rcases hfs : findSplit tmpl with _ | m
  · have h1 : updatedContent tmpl (allOptions ms) = tmpl := by
      unfold updatedContent
      rw [hfs]
    rw [h1]
    exact h1
  obtain ⟨hdec, hfail, hmatch⟩ := findSplit_sound hfs
  obtain ⟨hp, g1t, hg1, hmt⟩ := tryMatch_sound hmatch
  obtain ⟨hdec2, hterm, w, hwt, hws⟩ := matchTail_decomp hmt
  have hg1len : 9 ≤ m.g1.length := by
    rw [hg1, hwt]
    simp [optsMarker]
  have hup : updatedContent tmpl (allOptions ms) =
      m.pre ++ (m.g1 ++ (allOptions ms ++ (m.g3 ++ m.post))) :=
    updatedContent_eq_of_split tmpl (allOptions ms) m hfs hAnd
  have hbdrop : (m.g1 ++ (allOptions ms ++ (m.g3 ++ m.post))).drop 8 =
      (w ++ ['\n']) ++ (allOptions ms ++ (m.g3 ++ m.post)) := by
    rw [hg1, hwt, List.append_assoc]
    have h8 : optsMarker.length = 8 := by decide
    rw [← h8, List.drop_left]
  have htm : tryMatch (m.g1 ++ (allOptions ms ++ (m.g3 ++ m.post))) =
      some (m.g1, allOptions ms, m.g3, m.post) := by
    have hpre : optsMarker.isPrefixOf (m.g1 ++ (allOptions ms ++ (m.g3 ++ m.post))) = true := by
      rw [hg1, List.append_assoc]
      simp
    have hrec := tryMatch_of_matchTail hpre (by
      rw [hbdrop]
      exact matchTail_reconstruct w (allOptions ms) m.g3 m.post hws hsafe h9 hterm)
    rw [hrec, hg1, hwt]
  have hprefail : ∀ j, j < m.pre.length →
      tryMatch (m.pre.drop j ++ (m.g1 ++ (allOptions ms ++ (m.g3 ++ m.post)))) = none := by
    intro j hj
    have hjlen : j ≤ m.pre.length := le_of_lt hj
    rcases htest : tryMatch (m.pre.drop j ++ (m.g1 ++ (allOptions ms ++ (m.g3 ++ m.post))))
      with _ | ⟨x1, x2, x3, x4⟩
    · rfl
    exfalso
    obtain ⟨hp', y, hy, hmt'⟩ := tryMatch_sound htest
    have htj' : m.pre.drop j ++ (m.g1 ++ (allOptions ms ++ (m.g3 ++ m.post))) =
        (m.pre.drop j ++ m.g1) ++ (allOptions ms ++ (m.g3 ++ m.post)) := by
      simp [List.append_assoc]
    have hPlen : 8 ≤ (m.pre.drop j ++ m.g1).length := by
      simp only [List.length_append]
      omega
    have hdrop8 : (m.pre.drop j ++ (m.g1 ++ (allOptions ms ++ (m.g3 ++ m.post)))).drop 8 =
        (m.pre.drop j ++ m.g1).drop 8 ++ (allOptions ms ++ (m.g3 ++ m.post)) := by
      rw [htj', List.drop_append_of_le_length hPlen]
    have hmt2 : matchTail ((m.pre.drop j ++ m.g1).drop 8 ++
        (allOptions ms ++ (m.g3 ++ m.post))) ≠ none := by
      rw [← hdrop8, hmt']
      simp
    have hmt3 := matchTail_transfer ((m.pre.drop j ++ m.g1).drop 8) m.g2
      (allOptions ms) m.g3 m.post h9 hterm hmt2
    have hteq : tmpl.drop j = (m.pre.drop j ++ m.g1) ++ (m.g2 ++ (m.g3 ++ m.post)) := by
      conv_lhs => rw [hdec]
      rw [List.drop_append_of_le_length hjlen]
      simp [List.append_assoc]
    have hpre2 : optsMarker.isPrefixOf (tmpl.drop j) = true := by
      rw [hteq]
      have heq := isPrefixOf_eq_of_take
        (p := optsMarker)
        (x := (m.pre.drop j ++ m.g1) ++ (m.g2 ++ (m.g3 ++ m.post)))
        (y := (m.pre.drop j ++ m.g1) ++ (allOptions ms ++ (m.g3 ++ m.post)))
        (by
          have h8 : optsMarker.length = 8 := by decide
          rw [h8, List.take_append_of_le_length hPlen, List.take_append_of_le_length hPlen])
      rw [heq, ← htj']
      exact hp'
    have hcontra : tryMatch (tmpl.drop j) ≠ none := by
      unfold tryMatch
      rw [if_pos hpre2]
      have hdj : (tmpl.drop j).drop 8 =
          (m.pre.drop j ++ m.g1).drop 8 ++ (m.g2 ++ (m.g3 ++ m.post)) := by
        rw [hteq, List.drop_append_of_le_length hPlen]
      rw [hdj]
      rcases hmtx : matchTail ((m.pre.drop j ++ m.g1).drop 8 ++ (m.g2 ++ (m.g3 ++ m.post)))
        with _ | v
      · exact absurd hmtx hmt3
      · simp
    exact hcontra (hfail j hj)
  have hfs' : findSplit (m.pre ++ (m.g1 ++ (allOptions ms ++ (m.g3 ++ m.post)))) =
      some ⟨m.pre, m.g1, allOptions ms, m.g3, m.post⟩ := by
    rw [findSplit_append_fail m.pre _ hprefail, findSplit_head htm]
    simp
  rw [hup]
  unfold updatedContent replacementTemplate
  rw [hfs']
  simp only []
  rw [getSubst_clean m.pre m.post m.g1 (allOptions ms) m.g3 (allOptions ms) hAnd]
  simp [List.append_assoc]

/-- C2 amended witness: a clean one-monitor collection on the tiny
template. -/
theorem patch_idempotent_witness :
    updatedContent (updatedContent tmplTiny (allOptions [⟨("foo".data), ("bar".data)⟩]))
        (allOptions [⟨("foo".data), ("bar".data)⟩]) =
      updatedContent tmplTiny (allOptions [⟨("foo".data), ("bar".data)⟩]) :=
  patch_idempotent tmplTiny [⟨("foo".data), ("bar".data)⟩] (by simp) (by decide)
